import Mathlib

/-!
# flopt: a boolean flag cache and its refresher

A shallow embedding of `flags.go` and `refresher.go`.

* A Go `map[string]bool` is an `AList` (a finite map with unique keys); a nil map is `none`.
* A Go panic is `Except.error`; a call that returns normally is `Except.ok`.
* The mutex of `Flags` has no counterpart: the store operations are modelled one at a time.
* `RefreshCache` is a transition system over the state of its goroutines (further down).
-/

namespace Flopt

/-! ## Go maps -/

/-- Go `map[string]bool` once allocated: a finite map with unique keys. -/
abbrev FlagMap := AList (fun _ : String => Bool)

/-- Go `v, ok := m[key]`: reading a nil map is allowed and finds nothing. -/
def mapIndex (m : Option FlagMap) (key : String) : Bool × Bool :=
  match m with
  | none => (false, false)
  | some entries =>
    match entries.lookup key with
    | some v => (v, true)
    | none => (false, false)

/-- Go `m[key] = value`: panics on a nil map. -/
def mapAssign (m : Option FlagMap) (key : String) (value : Bool) : Except String (Option FlagMap) :=
  match m with
  | none => .error "assignment to entry in nil map"
  | some entries => .ok (some (entries.insert key value))

/-- Go `for k, v := range m`: the entries visited (none for a nil map). Go fixes no order;
the keys are distinct, so the order does not matter to the loops below. -/
def mapRange (m : Option FlagMap) : List (String × Bool) :=
  match m with
  | none => []
  | some entries => entries.entries.map (fun e => (e.1, e.2))

/-- The keys of a Go map (none for a nil map). -/
def mapKeys (m : Option FlagMap) : List String :=
  match m with
  | none => []
  | some entries => entries.keys

/-! ## flags.go -/

/-- Flags is a cache of flag keys to their values. -/
structure Flags where
  values : Option FlagMap
deriving DecidableEq

/-- Update updates the value of the flag key: `f.values[key] = value`. -/
def Flags.Update (f : Flags) (key : String) (value : Bool) : Except String Flags :=
  match mapAssign f.values key value with
  | .error e => .error e
  | .ok m => .ok { values := m }

/-- BatchUpdate: `for k, v := range newFlags { f.values[k] = v }`. -/
def Flags.BatchUpdate (f : Flags) (newFlags : Option FlagMap) : Except String Flags :=
  match (mapRange newFlags).foldlM (fun m kv => mapAssign m kv.1 kv.2) f.values with
  | .error e => .error e
  | .ok m => .ok { values := m }

/-- Read: `value, found = f.values[key]`. -/
def Flags.Read (f : Flags) (key : String) : Bool × Bool :=
  mapIndex f.values key

/-- IsEnabled returns the cached value, or registers and returns the fallback.
The result is the returned boolean together with the store after the call. -/
def Flags.IsEnabled (f : Flags) (key : String) (fallbackValue : Bool) : Except String (Bool × Flags) :=
  match f.Read key with
  | (_, false) =>
    match f.Update key fallbackValue with
    | .error e => .error e
    | .ok g => .ok (fallbackValue, g)
  | (b, true) => .ok (b, f)

/-- Go `type Option func(*Flags)`: an option acts on the store under construction. -/
abbrev FlagsOption := Flags → Except String Flags

/-- NewFlags: start from an empty, allocated map and apply the options in order. -/
def NewFlags (options : List FlagsOption) : Except String Flags :=
  options.foldlM (fun f o => o f) { values := some ∅ }

/-- WithBootstrapMap: `s.values = bm`, whatever `bm` is. -/
def WithBootstrapMap (bm : Option FlagMap) : FlagsOption :=
  fun _ => .ok { values := bm }

/-- Go standard library `strconv.ParseBool`: it accepts exactly
1, t, T, TRUE, true, True, 0, f, F, FALSE, false, False. -/
def ParseBool (str : String) : Except String Bool :=
  if str = "1" ∨ str = "t" ∨ str = "T" ∨ str = "TRUE" ∨ str = "true" ∨ str = "True" then .ok true
  else if str = "0" ∨ str = "f" ∨ str = "F" ∨ str = "FALSE" ∨ str = "false" ∨ str = "False" then .ok false
  else .error "strconv.ParseBool: invalid syntax"

/-- The loop of WithBootstrapPairs, `for i := 0; i < len(pairs); i = i + 2`, on the tokens
from position `i` on: parse `pairs[i+1]`, panic if it is no boolean, assign `s.values[pairs[i]]`. -/
def bootstrapLoop : List String → Flags → Except String Flags
  | [], s => .ok s
  | [_], _ => .error "index out of range"
  | key :: value :: rest, s =>
    match ParseBool value with
    | .error _ => .error (value ++ " is not a boolean")
    | .ok parseBool =>
      match mapAssign s.values key parseBool with
      | .error e => .error e
      | .ok m => bootstrapLoop rest { values := m }

/-- WithBootstrapPairs: panics on an odd number of tokens, then runs the loop. -/
def WithBootstrapPairs (pairs : List String) : FlagsOption :=
  fun s =>
    if pairs.length % 2 ≠ 0 then .error "pairs must be even"
    else bootstrapLoop pairs s

deriving instance DecidableEq for Except

/-- The options of `flags.go`, as data. -/
inductive Bootstrap where
  | map (bm : Option FlagMap)
  | pairs (tokens : List String)

/-- The option a `Bootstrap` stands for. -/
def Bootstrap.toOption : Bootstrap → FlagsOption
  | .map bm => WithBootstrapMap bm
  | .pairs tokens => WithBootstrapPairs tokens

/-! ## refresher.go: construction -/

/-- What one call `r.fetchFn(gCtx, k)` of a fetch task gives back: the returned pair and,
with it, the time the task measures around the call, `time.Since(startTime).Nanoseconds()`. -/
structure FetchReturn where
  isEnabled : Bool
  err : Option String
  elapsed : Nat

/-- Go `func(context.Context, string) (bool, error)`. The function is the caller's and may
depend on the outside world, so the model gives it the number of the refresh cycle making
the call, whether the context it receives is already cancelled, and the key. Within a cycle
each key is fetched once, so every Go behaviour of such a function is covered. -/
abbrev FetchFn := Nat → Bool → String → FetchReturn

/-- A callback `func()`: its body is the caller's, the model counts its invocations. -/
abbrev Hook := Unit

/-- Refresher is a cache refresher. Pointers and function values that may be nil are options.
The logger is left out: logging changes no state. Of the prometheus counter vector only the
name it is registered under is kept. -/
structure Refresher where
  fetchFn : Option FetchFn
  fetchMaxConcurrency : Int
  flags : Option Flags
  failedRefreshes : String
  failedAttemptsFn : Option Hook
  failedAttemptsMaxDuration : Int
  failedAttemptsMaxCount : Int

/-- Go `type RefresherOption func(*Refresher)`; an option may panic. -/
abbrev RefresherOption := Refresher → Except String Refresher

/-- A prometheus registerer, as far as `MustRegister` looks at it: the names of the
collectors registered with it so far. -/
abbrev Registerer := List String

/-- WithRegisterer: `r.MustRegister(s.failedRefreshes)` panics on a nil registerer and on a
collector that is registered already. -/
def WithRegisterer (r : Option Registerer) : RefresherOption :=
  fun s =>
    match r with
    | none => .error "invalid memory address or nil pointer dereference"
    | some registered =>
      if s.failedRefreshes ∈ registered then .error "duplicate metrics collector registration attempted"
      else .ok s

/-- WithFailedAttemptsHook: `s.failedAttemptsFn = fn`. -/
def WithFailedAttemptsHook (fn : Option Hook) : RefresherOption :=
  fun s => .ok { s with failedAttemptsFn := fn }

/-- WithFailedAttemptsMaxDuration: `s.failedAttemptsMaxDuration = d`. -/
def WithFailedAttemptsMaxDuration (d : Int) : RefresherOption :=
  fun s => .ok { s with failedAttemptsMaxDuration := d }

/-- WithFailedAttemptsMaxCount: `s.failedAttemptsMaxCount = count`. -/
def WithFailedAttemptsMaxCount (count : Int) : RefresherOption :=
  fun s => .ok { s with failedAttemptsMaxCount := count }

/-- NewRefresher returns Go's pair `(*Refresher, error)`; `.error` is a panic of an option.
Only `flags` is tested against nil. -/
def NewRefresher (flags : Option Flags) (fetchFn : Option FetchFn) (options : List RefresherOption) :
    Except String (Option Refresher × Option String) :=
  match flags with
  | none => .ok (none, some "flags cannot be nil")
  | some f =>
    let refresher : Refresher :=
      { fetchFn := fetchFn
        fetchMaxConcurrency := -1
        flags := some f
        failedRefreshes := "ff_client_failed_refreshes_total"
        failedAttemptsFn := none
        failedAttemptsMaxDuration := 0
        failedAttemptsMaxCount := 0 }
    match options.foldlM (fun r o => o r) refresher with
    | .error e => .error e
    | .ok r => .ok (some r, none)

/-! ## refresher.go: RefreshCache

`RefreshCache` runs several goroutines: the loop itself, one fetch task per key started through
`errgroup.Group.Go`, and one goroutine that waits for the group and closes the result channel.
The model is a transition system. A state holds the variables of `RefreshCache` and where each
goroutine stands; an `Action` is one atomic move of one goroutine (or of the outside world);
`step` says when the move is possible and what it does. An execution is a list of actions, so
every interleaving is an execution. The closure started by `g.Go` has its own `k`
(per-iteration loop variables, Go 1.22 on). The store is touched by `RefreshCache` alone.
-/

/-- Go `int32` arithmetic wraps around. -/
def wrapInt32 (x : Int) : Int := (x + 2147483648) % 4294967296 - 2147483648

/-- Go `int64` arithmetic wraps around. -/
def wrapInt64 (x : Int) : Int := (x + 9223372036854775808) % 18446744073709551616 - 9223372036854775808

/-- Where the goroutine running `RefreshCache` stands. -/
inductive Phase where
  /-- In `select`, waiting for the ticker or for `ctx.Done()`. -/
  | waiting
  /-- In `for k := range r.flags.values`, starting tasks with `g.Go`. -/
  | ranging
  /-- In `for pair := range resultC`, the waiting goroutine started. -/
  | collecting
  /-- After `return`. -/
  | returned
  /-- The process died of a panic. -/
  | crashed
deriving DecidableEq

/-- One call of `fetchFn`, as observed: the key, whether the context passed (`gCtx`) was
cancelled, whether the outer context (`ctx`) was cancelled at that moment, and the return. -/
structure Call where
  key : String
  ctxDone : Bool
  outerDone : Bool
  ret : FetchReturn

/-- The call returned an error. -/
def Call.failed (c : Call) : Bool := c.ret.err.isSome

/-- State of `RefreshCache`. `flags` is the store behind the pointer `r.flags` (none: nil
pointer). `pending`: keys the `range` loop has not reached. `running`: tasks whose `fetchFn`
has not returned. `sending`: tasks blocked in `resultC <- Pair`. `calls` and `hookCalls`
observe the current cycle: the calls of `fetchFn` (latest first) and of the hook. -/
structure State where
  phase : Phase
  flags : Option Flags
  ctxDone : Bool
  failedAttempts : Int
  failedAttemptsDuration : Int
  ticks : Nat
  gCtxDone : Bool
  gErr : Option String
  pending : List String
  running : List String
  sending : List (String × Bool)
  auxMap : FlagMap
  closed : Bool
  calls : List Call
  hookCalls : Nat

/-- One atomic move. -/
inductive Action where
  /-- The ticker fires and `select` takes it: a cycle begins. -/
  | tick
  /-- The loop reaches key `k` and `g.Go` starts its task (Go fixes no order of the keys). -/
  | go (k : String)
  /-- The `range` loop is over: the waiting goroutine starts, the loop turns to `resultC`. -/
  | endRange
  /-- The task of key `k` calls `fetchFn` and handles the return. -/
  | fetch (k : String)
  /-- The loop receives the pair a task is sending; the task returns nil. -/
  | recv (k : String) (v : Bool)
  /-- In the waiting goroutine `g.Wait()` returns; the hook test; `close(resultC)`. -/
  | wait
  /-- The loop leaves `range resultC`: `BatchUpdate(auxMap)` and the counters are zeroed. -/
  | merge
  /-- The caller cancels `ctx`. -/
  | cancel
  /-- The `select` takes `ctx.Done()`: `RefreshCache` returns. -/
  | ret
deriving DecidableEq

/-- The state in which `RefreshCache` enters its loop: both counters 0, no cycle yet. -/
def entryState (r : Refresher) (ctxDone : Bool) : State :=
  { phase := .waiting
    flags := r.flags
    ctxDone := ctxDone
    failedAttempts := 0
    failedAttemptsDuration := 0
    ticks := 0
    gCtxDone := false
    gErr := none
    pending := []
    running := []
    sending := []
    auxMap := ∅
    closed := false
    calls := []
    hookCalls := 0 }

/-- RefreshCache up to its loop: `time.NewTicker(d)` panics unless `d` is positive. -/
def RefreshCache (r : Refresher) (ctxDone : Bool) (d : Int) : Except String State :=
  if d ≤ 0 then .error "non-positive interval for NewTicker"
  else .ok (entryState r ctxDone)

/-- The hook test made after `g.Wait()` returned an error. -/
def hookFires (r : Refresher) (failedAttempts failedAttemptsDuration : Int) : Bool :=
  r.failedAttemptsFn.isSome &&
    (decide (failedAttempts ≥ r.failedAttemptsMaxCount) ||
      decide (failedAttemptsDuration > r.failedAttemptsMaxDuration))

/-- The moves of `RefreshCache`; `none` when the move is not possible in `s`.

* `tick`: `errgroup.WithContext(ctx)` derives `gCtx` (cancelled if `ctx` is), `SetLimit`,
  a new `resultC`; the loop starts over the keys of the store.
* `go k`: `g.Go` blocks while the limit is reached; a negative limit is no limit. A task
  holds its place until it has returned, so the tasks in `sending` count.
* `fetch k`: on an error the counters are increased, the task returns it, and the group keeps
  the first error and cancels `gCtx`; else the task goes on to send its pair.
* `wait`: `g.Wait()` returns once every task has returned, and cancels `gCtx`. -/
def step (r : Refresher) (a : Action) (s : State) : Option State :=
  match a with
  | .tick =>
    if s.phase = .waiting then
      match s.flags with
      | none => some { s with phase := .crashed }
      | some f =>
        some { s with
          phase := .ranging
          ticks := s.ticks + 1
          gCtxDone := s.ctxDone
          gErr := none
          pending := mapKeys f.values
          running := []
          sending := []
          auxMap := ∅
          closed := false
          calls := []
          hookCalls := 0 }
    else none
  | .go k =>
    if s.phase = .ranging ∧ k ∈ s.pending ∧
        (r.fetchMaxConcurrency < 0 ∨
          ((s.running.length + s.sending.length : Nat) : Int) < r.fetchMaxConcurrency) then
      some { s with pending := s.pending.erase k, running := k :: s.running }
    else none
  | .endRange =>
    if s.phase = .ranging ∧ s.pending = [] then some { s with phase := .collecting }
    else none
  | .fetch k =>
    if (s.phase = .ranging ∨ s.phase = .collecting) ∧ k ∈ s.running then
      match r.fetchFn with
      | none => some { s with phase := .crashed }
      | some fetchFn =>
        let ret := fetchFn s.ticks s.gCtxDone k
        let call : Call := { key := k, ctxDone := s.gCtxDone, outerDone := s.ctxDone, ret := ret }
        match ret.err with
        | some e =>
          some { s with
            running := s.running.erase k
            failedAttempts := wrapInt32 (s.failedAttempts + 1)
            failedAttemptsDuration := wrapInt64 (s.failedAttemptsDuration + ret.elapsed)
            gErr := match s.gErr with
              | none => some e
              | some first => some first
            gCtxDone := true
            calls := call :: s.calls }
        | none =>
          some { s with
            running := s.running.erase k
            sending := (k, ret.isEnabled) :: s.sending
            calls := call :: s.calls }
    else none
  | .recv k v =>
    if s.phase = .collecting ∧ (k, v) ∈ s.sending then
      some { s with sending := s.sending.erase (k, v), auxMap := s.auxMap.insert k v }
    else none
  | .wait =>
    if s.phase = .collecting ∧ s.closed = false ∧ s.running = [] ∧ s.sending = [] then
      some { s with
        gCtxDone := true
        closed := true
        hookCalls :=
          if s.gErr.isSome && hookFires r s.failedAttempts s.failedAttemptsDuration
          then s.hookCalls + 1 else s.hookCalls }
    else none
  | .merge =>
    if s.phase = .collecting ∧ s.closed = true then
      match s.flags with
      | none => some { s with phase := .crashed }
      | some f =>
        match f.BatchUpdate (some s.auxMap) with
        | .error _ => some { s with phase := .crashed }
        | .ok g =>
          some { s with
            phase := .waiting
            flags := some g
            failedAttempts := 0
            failedAttemptsDuration := 0 }
    else none
  | .cancel => some { s with ctxDone := true, gCtxDone := true }
  | .ret =>
    if s.phase = .waiting ∧ s.ctxDone = true then some { s with phase := .returned }
    else none

/-- The state after the task of `k` saw `fetchFn` return an error. -/
def afterFailure (s : State) (k e : String) (ret : FetchReturn) : State :=
  { s with
    running := s.running.erase k
    failedAttempts := wrapInt32 (s.failedAttempts + 1)
    failedAttemptsDuration := wrapInt64 (s.failedAttemptsDuration + ret.elapsed)
    gErr := match s.gErr with
      | none => some e
      | some first => some first
    gCtxDone := true
    calls := { key := k, ctxDone := s.gCtxDone, outerDone := s.ctxDone, ret := ret } :: s.calls }

/-- The state after the task of `k` saw `fetchFn` return a value. -/
def afterSuccess (s : State) (k : String) (ret : FetchReturn) : State :=
  { s with
    running := s.running.erase k
    sending := (k, ret.isEnabled) :: s.sending
    calls := { key := k, ctxDone := s.gCtxDone, outerDone := s.ctxDone, ret := ret } :: s.calls }

/-- Run a list of moves, one after the other. -/
def run (r : Refresher) : List Action → State → Option State
  | [], s => some s
  | a :: rest, s =>
    match step r a s with
    | none => none
    | some t => run r rest t

/-- An execution of `RefreshCache(ctx, d)` from its entry. -/
def exec (r : Refresher) (ctxDone : Bool) (d : Int) (acts : List Action) : Option State :=
  match RefreshCache r ctxDone d with
  | .error _ => none
  | .ok s => run r acts s

/-- Number of calls of the cycle that returned an error. -/
def failCount (calls : List Call) : Nat := (calls.filter Call.failed).length

/-- Sum of the times measured around the calls of the cycle that returned an error. -/
def failDuration (calls : List Call) : Nat :=
  ((calls.filter Call.failed).map (fun c => c.ret.elapsed)).sum

/-! ## What the executions keep true -/

/-- The hook test of a cycle, from the calls of that cycle: some call failed, a hook is set,
and the `int32` count of the failed calls reaches the maximum or the `int64` sum of their
times exceeds the maximum duration. -/
def hookDue (r : Refresher) (calls : List Call) : Bool :=
  decide (0 < failCount calls) &&
    hookFires r (wrapInt32 (failCount calls)) (wrapInt64 (failDuration calls))

/-- In the moves of `step`, where a call and the return of its task are one move: the context
a call received was cancelled exactly when the outer context was cancelled by then or an
earlier call of the same cycle had returned an error. -/
def LogOK : List Call → Prop
  | [] => True
  | c :: earlier => c.ctxDone = (c.outerDone || earlier.any Call.failed) ∧ LogOK earlier

/-- The goroutine of `RefreshCache` is inside a cycle. -/
def State.inCycle (s : State) : Prop := s.phase = .ranging ∨ s.phase = .collecting

/-- The goroutine of `RefreshCache` is between cycles, or has returned. -/
def State.idle (s : State) : Prop := s.phase = .waiting ∨ s.phase = .returned

/-- Facts that hold in every state an execution of `RefreshCache` reaches. -/
structure Inv (r : Refresher) (s : State) : Prop where
  countersIdle : s.idle → s.failedAttempts = 0 ∧ s.failedAttemptsDuration = 0
  countersCycle : s.inCycle →
    s.failedAttempts = wrapInt32 (failCount s.calls) ∧
      s.failedAttemptsDuration = wrapInt64 (failDuration s.calls)
  groupErr : s.inCycle → (s.gErr.isSome = true ↔ 0 < failCount s.calls)
  groupCtx : s.inCycle → s.closed = false →
    s.gCtxDone = (s.ctxDone || s.calls.any Call.failed)
  openRanging : s.phase = .ranging → s.closed = false
  quiet : s.inCycle → s.closed = true → s.running = []
  hookOpen : s.inCycle → s.closed = false → s.hookCalls = 0
  hookDone : s.idle ∨ (s.inCycle ∧ s.closed = true) →
    s.hookCalls = if hookDue r s.calls then 1 else 0
  hookOnce : s.hookCalls ≤ 1
  log : LogOK s.calls

/-- Facts about the cycle number `n` of an execution, begun on the store `f`: what holds while
the cycle runs (each tracked key is pending, running, or has been fetched once; the pairs
sent and received are those of the successful calls), and `done`, what holds once it is over. -/
structure Cyc (r : Refresher) (f : Flags) (n : Nat) (s : State) : Prop where
  ticks : s.ticks = n
  flags : s.inCycle → s.flags = some f
  nodup : s.inCycle → (s.pending ++ s.running).Nodup
  fresh : s.inCycle → ∀ k ∈ s.pending ++ s.running, ∀ c ∈ s.calls, c.key ≠ k
  callsNodup : (s.calls.map Call.key).Nodup
  cover : s.inCycle → ∀ k ∈ mapKeys f.values,
    k ∈ s.pending ++ s.running ∨ ∃ c ∈ s.calls, c.key = k
  trackedCalls : ∀ c ∈ s.calls, c.key ∈ mapKeys f.values
  trackedTasks : s.inCycle → ∀ k ∈ s.pending ++ s.running, k ∈ mapKeys f.values
  fetched : ∀ c ∈ s.calls, ∃ fetch, r.fetchFn = some fetch ∧ c.ret = fetch n c.ctxDone c.key
  okCalls : s.inCycle → ∀ c ∈ s.calls, c.failed = false →
    (c.key, c.ret.isEnabled) ∈ s.sending ∨ s.auxMap.lookup c.key = some c.ret.isEnabled
  badCalls : s.inCycle → ∀ c ∈ s.calls, c.failed = true → s.auxMap.lookup c.key = none
  sendingCalls : s.inCycle → ∀ k v, (k, v) ∈ s.sending →
    ∃ c ∈ s.calls, c.key = k ∧ c.failed = false ∧ c.ret.isEnabled = v
  auxCalls : s.inCycle → ∀ k, k ∈ s.auxMap.keys → ∃ c ∈ s.calls, c.key = k
  collecting : s.phase = .collecting → s.pending = []
  closedQuiet : s.inCycle → s.closed = true →
    s.phase = .collecting ∧ s.running = [] ∧ s.sending = []
  done : s.idle → ∃ g, s.flags = some g ∧
    (∀ k ∈ mapKeys f.values, ∃ c ∈ s.calls, c.key = k ∧
      g.Read k = if c.failed = true then f.Read k else (c.ret.isEnabled, true)) ∧
    (∀ k, k ∉ mapKeys f.values → g.Read k = f.Read k)

/-- A bound on the moves a cycle still has to make before its merge. -/
def State.work (s : State) : Nat :=
  3 * s.pending.length + 2 * s.running.length + s.sending.length +
    (if s.phase = .ranging then 1 else 0) + (if s.closed = true then 0 else 1)

/-! ## The example of the specification

Tracked keys a and b; the fetch of a returns true, the fetch of b returns an error. -/

/-- The store before the cycle: a is false, b is true. -/
def storeAB : Flags :=
  { values := some (((∅ : FlagMap).insert "a" false).insert "b" true) }

/-- The fetch function of the example. -/
def fetchAB : FetchFn := fun _ _ key =>
  if key = "b" then { isEnabled := false, err := some "unavailable", elapsed := 7 }
  else { isEnabled := true, err := none, elapsed := 3 }

/-- The Refresher that `NewRefresher` builds over `storeAB` and `fetchAB` with a hook and a
maximum count of 1. -/
def refresherAB : Refresher :=
  { fetchFn := some fetchAB
    fetchMaxConcurrency := -1
    flags := some storeAB
    failedRefreshes := "ff_client_failed_refreshes_total"
    failedAttemptsFn := some ()
    failedAttemptsMaxDuration := 0
    failedAttemptsMaxCount := 1 }

/-- One cycle in which the fetch of b returns its error before the fetch of a is made,
up to the moment `g.Wait()` has returned. -/
def cycleABOpen : List Action :=
  [.tick, .go "a", .go "b", .endRange, .fetch "b", .fetch "a", .recv "a" true, .wait]

/-- The same cycle, whole. -/
def cycleAB : List Action := cycleABOpen ++ [.merge]

/-- Facts about a cycle begun on a store `f` without keys: nothing is started, fetched, sent
or counted, and the store stays `f`. -/
structure EmptyCyc (f : Flags) (s : State) : Prop where
  flags : s.flags = some f
  pending : s.pending = []
  running : s.running = []
  sending : s.sending = []
  auxMap : s.auxMap = ∅
  gErr : s.gErr = none
  calls : s.calls = []
  hookCalls : s.hookCalls = 0
  openRanging : s.phase = .ranging → s.closed = false
  alive : s.phase ≠ .crashed

/-- The loop of a cycle is blocked in `g.Go`: keys are left, no task was started. -/
structure Stuck (s : State) : Prop where
  phase : s.phase = .ranging
  pending : s.pending ≠ []
  running : s.running = []
  sending : s.sending = []
  calls : s.calls = []

/-- The Refresher of the example with the limit of tasks set to 0. -/
def refresherZero : Refresher := { refresherAB with fetchMaxConcurrency := 0 }

/-- The Refresher of the example with the maximum count left at 0 and a maximum duration of
one hour. -/
def refresherHour : Refresher :=
  { refresherAB with failedAttemptsMaxCount := 0, failedAttemptsMaxDuration := 3600000000000 }

/-- A Refresher with a hook and both thresholds 0 over a store without keys. -/
def refresherEmpty : Refresher :=
  { refresherAB with flags := some { values := some ∅ }, failedAttemptsMaxCount := 0 }

/-! ## RefreshCache, with the calls of the fetch function overlapping

`step` takes the call of `fetchFn`, its return and the return of the task to the group as one
move. That is enough for the store, the counters and the hook, which are read only after
every task has returned. The context `gCtx` is watched while the tasks run: several calls are
under way together, and the group cancels `gCtx` only when a task has returned its error. The
transition system below has one move for each of these events, and one for the cancellation
of `ctx` reaching `gCtx`. -/

/-- One call of `fetchFn`, as observed: the key, whether `gCtx` was cancelled when the function
was called, whether it was when the function returned, and the return. -/
structure FineCall where
  key : String
  ctxAtCall : Bool
  ctxAtReturn : Bool
  ret : FetchReturn

/-- State of `RefreshCache` with the tasks followed move by move. `started`: tasks begun by
`g.Go` that have not called `fetchFn` yet. `calling`: tasks inside `fetchFn`, each with the
state of `gCtx` at the call. `failing`: tasks whose `fetchFn` returned an error and which have
increased the counters, about to return the error. `sending`: tasks blocked in
`resultC <- Pair`. `failedTasks` observes the keys of the tasks whose error the group has
received in the current cycle. The other fields are those of `State`. -/
structure Fine where
  phase : Phase
  flags : Option Flags
  ctxDone : Bool
  failedAttempts : Int
  failedAttemptsDuration : Int
  ticks : Nat
  gCtxDone : Bool
  gErr : Option String
  pending : List String
  started : List String
  calling : List (String × Bool)
  failing : List (String × String)
  sending : List (String × Bool)
  auxMap : FlagMap
  closed : Bool
  calls : List FineCall
  hookCalls : Nat
  failedTasks : List String

/-- One atomic move, with the calls of the fetch function overlapping. -/
inductive FineAction where
  /-- The ticker fires and `select` takes it: a cycle begins. -/
  | tick
  /-- The loop reaches key `k` and `g.Go` starts its task. -/
  | go (k : String)
  /-- The `range` loop is over: the waiting goroutine starts, the loop turns to `resultC`. -/
  | endRange
  /-- The task of key `k` calls `r.fetchFn(gCtx, k)`. -/
  | call (k : String)
  /-- The call of `fetchFn` made by the task of `k`, with `gCtx` in state `c`, returns; on an
  error the task increases the counters. -/
  | back (k : String) (c : Bool)
  /-- The task of `k` returns the error `e`: the group keeps the first error and cancels
  `gCtx`. -/
  | fail (k : String) (e : String)
  /-- The loop receives the pair a task is sending; the task returns nil. -/
  | recv (k : String) (v : Bool)
  /-- In the waiting goroutine `g.Wait()` returns; the hook test; `close(resultC)`. -/
  | wait
  /-- The loop leaves `range resultC`: `BatchUpdate(auxMap)` and the counters are zeroed. -/
  | merge
  /-- The caller cancels `ctx`. -/
  | cancel
  /-- The cancellation of `ctx` reaches `gCtx`, which is derived from it. -/
  | spread
  /-- The `select` takes `ctx.Done()`: `RefreshCache` returns. -/
  | ret
deriving DecidableEq

/-- The state in which `RefreshCache` enters its loop. -/
def entryFine (r : Refresher) (ctxDone : Bool) : Fine :=
  { phase := .waiting
    flags := r.flags
    ctxDone := ctxDone
    failedAttempts := 0
    failedAttemptsDuration := 0
    ticks := 0
    gCtxDone := false
    gErr := none
    pending := []
    started := []
    calling := []
    failing := []
    sending := []
    auxMap := ∅
    closed := false
    calls := []
    hookCalls := 0
    failedTasks := [] }

/-- The goroutine of `RefreshCache` is inside a cycle. -/
def Fine.inCycle (s : Fine) : Prop := s.phase = .ranging ∨ s.phase = .collecting

/-- The moves of `RefreshCache` with the calls overlapping; `none` when the move is not
possible in `s`.

* `tick`, `endRange`, `recv`, `merge`, `ret`: as in `step`.
* `go k`: a task holds its place from `g.Go` until it has returned, wherever it stands.
* `call k`: the task calls `fetchFn` (a nil function panics) and is under way.
* `back k c`: `fetchFn` returns; it is told whether `gCtx` was cancelled by then. On an
  error the task increases the counters and is about to return it; else it goes on to send.
* `fail k e`: the task returns `e`; `errgroup` keeps the first error and cancels `gCtx`.
* `wait`: `g.Wait()` returns once every task has returned, and cancels `gCtx`.
* `cancel`, `spread`: `ctx` is cancelled; `gCtx`, derived from it, follows. -/
def stepFine (r : Refresher) (a : FineAction) (s : Fine) : Option Fine :=
  match a with
  | .tick =>
    if s.phase = .waiting then
      match s.flags with
      | none => some { s with phase := .crashed }
      | some f =>
        some { s with
          phase := .ranging
          ticks := s.ticks + 1
          gCtxDone := s.ctxDone
          gErr := none
          pending := mapKeys f.values
          started := []
          calling := []
          failing := []
          sending := []
          auxMap := ∅
          closed := false
          calls := []
          hookCalls := 0
          failedTasks := [] }
    else none
  | .go k =>
    if s.phase = .ranging ∧ k ∈ s.pending ∧
        (r.fetchMaxConcurrency < 0 ∨
          ((s.started.length + s.calling.length + s.failing.length + s.sending.length : Nat) :
            Int) < r.fetchMaxConcurrency) then
      some { s with pending := s.pending.erase k, started := k :: s.started }
    else none
  | .endRange =>
    if s.phase = .ranging ∧ s.pending = [] then some { s with phase := .collecting }
    else none
  | .call k =>
    if (s.phase = .ranging ∨ s.phase = .collecting) ∧ k ∈ s.started then
      match r.fetchFn with
      | none => some { s with phase := .crashed }
      | some _ =>
        some { s with started := s.started.erase k, calling := (k, s.gCtxDone) :: s.calling }
    else none
  | .back k c =>
    if (s.phase = .ranging ∨ s.phase = .collecting) ∧ (k, c) ∈ s.calling then
      match r.fetchFn with
      | none => some { s with phase := .crashed }
      | some fetchFn =>
        let ret := fetchFn s.ticks s.gCtxDone k
        let call : FineCall :=
          { key := k, ctxAtCall := c, ctxAtReturn := s.gCtxDone, ret := ret }
        match ret.err with
        | some e =>
          some { s with
            calling := s.calling.erase (k, c)
            failedAttempts := wrapInt32 (s.failedAttempts + 1)
            failedAttemptsDuration := wrapInt64 (s.failedAttemptsDuration + ret.elapsed)
            failing := (k, e) :: s.failing
            calls := call :: s.calls }
        | none =>
          some { s with
            calling := s.calling.erase (k, c)
            sending := (k, ret.isEnabled) :: s.sending
            calls := call :: s.calls }
    else none
  | .fail k e =>
    if (s.phase = .ranging ∨ s.phase = .collecting) ∧ (k, e) ∈ s.failing then
      some { s with
        failing := s.failing.erase (k, e)
        gErr := match s.gErr with
          | none => some e
          | some first => some first
        gCtxDone := true
        failedTasks := k :: s.failedTasks }
    else none
  | .recv k v =>
    if s.phase = .collecting ∧ (k, v) ∈ s.sending then
      some { s with sending := s.sending.erase (k, v), auxMap := s.auxMap.insert k v }
    else none
  | .wait =>
    if s.phase = .collecting ∧ s.closed = false ∧ s.started = [] ∧ s.calling = [] ∧
        s.failing = [] ∧ s.sending = [] then
      some { s with
        gCtxDone := true
        closed := true
        hookCalls :=
          if s.gErr.isSome && hookFires r s.failedAttempts s.failedAttemptsDuration
          then s.hookCalls + 1 else s.hookCalls }
    else none
  | .merge =>
    if s.phase = .collecting ∧ s.closed = true then
      match s.flags with
      | none => some { s with phase := .crashed }
      | some f =>
        match f.BatchUpdate (some s.auxMap) with
        | .error _ => some { s with phase := .crashed }
        | .ok g =>
          some { s with
            phase := .waiting
            flags := some g
            failedAttempts := 0
            failedAttemptsDuration := 0 }
    else none
  | .cancel => some { s with ctxDone := true }
  | .spread =>
    if s.ctxDone = true then some { s with gCtxDone := true }
    else none
  | .ret =>
    if s.phase = .waiting ∧ s.ctxDone = true then some { s with phase := .returned }
    else none

/-- Run a list of moves, one after the other. -/
def runFine (r : Refresher) : List FineAction → Fine → Option Fine
  | [], s => some s
  | a :: rest, s =>
    match stepFine r a s with
    | none => none
    | some t => runFine r rest t

/-- An execution of `RefreshCache(ctx, d)` from its entry, with the calls overlapping. -/
def execFine (r : Refresher) (ctxDone : Bool) (d : Int) (acts : List FineAction) :
    Option Fine :=
  match RefreshCache r ctxDone d with
  | .error _ => none
  | .ok _ => runFine r acts (entryFine r ctxDone)

/-- A state of `step` as a state of `stepFine`: no task is inside the fetch function or about
to return an error, since `step` takes these in one move. -/
def State.fine (s : State) : Fine :=
  { phase := s.phase
    flags := s.flags
    ctxDone := s.ctxDone
    failedAttempts := s.failedAttempts
    failedAttemptsDuration := s.failedAttemptsDuration
    ticks := s.ticks
    gCtxDone := s.gCtxDone
    gErr := s.gErr
    pending := s.pending
    started := s.running
    calling := []
    failing := []
    sending := s.sending
    auxMap := s.auxMap
    closed := s.closed
    calls := s.calls.map
      (fun c => { key := c.key, ctxAtCall := c.ctxDone, ctxAtReturn := c.ctxDone, ret := c.ret })
    hookCalls := s.hookCalls
    failedTasks := (s.calls.filter Call.failed).map Call.key }

/-- The keys of the tasks of the cycle that have not returned a value: not yet started,
started, inside `fetchFn`, about to return an error, and returned with an error. -/
def Fine.taskKeys (s : Fine) : List String :=
  s.pending ++ (s.started ++ (s.calling.map Prod.fst ++
    (s.failing.map Prod.fst ++ s.failedTasks)))

/-- Facts that hold in every state of a cycle, with the calls overlapping. -/
structure FineInv (s : Fine) : Prop where
  openRanging : s.phase = .ranging → s.closed = false
  collecting : s.phase = .collecting → s.pending = []
  quiet : s.inCycle → s.closed = true →
    s.phase = .collecting ∧ s.started = [] ∧ s.calling = [] ∧ s.failing = []
  onlyIf : s.inCycle → s.gCtxDone = true →
    s.ctxDone = true ∨ s.failedTasks ≠ [] ∨ s.closed = true
  errCancels : s.inCycle → s.failedTasks ≠ [] → s.gCtxDone = true
  groupErr : s.inCycle → (s.gErr.isSome = true ↔ s.failedTasks ≠ [])
  distinct : s.inCycle → s.taskKeys.Nodup

/-- The fetch function of the example turned round: every fetch returns an error. -/
def fetchNone : FetchFn := fun _ _ _ =>
  { isEnabled := false, err := some "unavailable", elapsed := 5 }

/-- The Refresher of the example with `fetchNone`. -/
def refresherNone : Refresher := { refresherAB with fetchFn := some fetchNone }

/-! ## Boolean literals -/

/-- The tokens `strconv.ParseBool` reads as true. -/
def trueLiterals : List String := ["1", "t", "T", "TRUE", "true", "True"]

/-- The tokens `strconv.ParseBool` reads as false. -/
def falseLiterals : List String := ["0", "f", "F", "FALSE", "false", "False"]

/-- A token with every letter in lower case, to compare tokens ignoring letter case. -/
def lowerCase (s : String) : String := String.mk (s.data.map Char.toLower)

/-! # Theorems -/

/-! ## The store -/

theorem update_allocated (m : FlagMap) (key : String) (value : Bool) :
    Flags.Update { values := some m } key value = .ok { values := some (m.insert key value) } := rfl

theorem update_nil (key : String) (value : Bool) :
    Flags.Update { values := none } key value = .error "assignment to entry in nil map" := rfl

theorem read_insert_self (m : FlagMap) (key : String) (value : Bool) :
    Flags.Read { values := some (m.insert key value) } key = (value, true) := by
  simp [Flags.Read, mapIndex]

theorem read_insert_other (m : FlagMap) (key other : String) (value : Bool) (h : other ≠ key) :
    Flags.Read { values := some (m.insert key value) } other = Flags.Read { values := some m } other := by
  simp [Flags.Read, mapIndex, AList.lookup_insert_ne h]

theorem read_eq_of_lookup (m : FlagMap) (key : String) :
    Flags.Read { values := some m } key =
      match m.lookup key with
      | some v => (v, true)
      | none => (false, false) := rfl

theorem mapAssign_allocated (m : FlagMap) (key : String) (value : Bool) :
    mapAssign (some m) key value = .ok (some (m.insert key value)) := rfl

/-- Assigning distinct entries one after the other into an allocated map: the result is
allocated, and looks a key up in the entries first and in the old map second. -/
theorem foldlM_assign_allocated (l : List (Sigma (fun _ : String => Bool))) :
    ∀ (m : FlagMap), l.NodupKeys →
      ∃ m2 : FlagMap,
        (l.map (fun e => (e.1, e.2))).foldlM (fun (g : Option FlagMap) kv => mapAssign g kv.1 kv.2)
            (some m) = .ok (some m2) ∧
        ∀ key, m2.lookup key = (l.dlookup key).orElse (fun _ => m.lookup key) := by
  induction l with
  | nil =>
    intro m _
    exact ⟨m, rfl, fun key => by simp⟩
  | cons e t ih =>
    intro m hnd
    obtain ⟨a, b⟩ := e
    rw [List.nodupKeys_cons] at hnd
    obtain ⟨m2, hrun, hlook⟩ := ih (m.insert a b) hnd.2
    refine ⟨m2, ?_, ?_⟩
    · simp only [List.map_cons, List.foldlM_cons, mapAssign_allocated]
      exact hrun
    · intro key
      rw [hlook key]
      by_cases hk : key = a
      · subst hk
        have hnone : List.dlookup key t = none := List.dlookup_eq_none.mpr hnd.1
        simp [hnone, List.dlookup_cons_eq]
      · have hne : key ≠ (⟨a, b⟩ : Sigma (fun _ : String => Bool)).1 := hk
        rw [List.dlookup_cons_ne t _ hne, AList.lookup_insert_ne hk]

/-- BatchUpdate into an allocated store never panics and merges. -/
theorem batchUpdate_allocated (m newFlags : FlagMap) :
    ∃ m2 : FlagMap,
      Flags.BatchUpdate { values := some m } (some newFlags) = .ok { values := some m2 } ∧
      ∀ key, m2.lookup key = (newFlags.lookup key).orElse (fun _ => m.lookup key) := by
  obtain ⟨m2, hrun, hlook⟩ := foldlM_assign_allocated newFlags.entries m newFlags.nodupKeys
  refine ⟨m2, ?_, hlook⟩
  simp only [Flags.BatchUpdate, mapRange, hrun]

/-- BatchUpdate of a nil or empty mapping changes nothing, in any store. -/
theorem batchUpdate_nothing (f : Flags) :
    f.BatchUpdate none = .ok f ∧ f.BatchUpdate (some ∅) = .ok f := ⟨rfl, rfl⟩

/-- An unknown key in an allocated store: Read finds nothing, IsEnabled returns the fallback
and registers it. -/
theorem isEnabled_unknown_allocated (m : FlagMap) (key : String) (fallback : Bool)
    (h : m.lookup key = none) :
    Flags.Read { values := some m } key = (false, false) ∧
      ∃ g : Flags, Flags.IsEnabled { values := some m } key fallback = .ok (fallback, g) ∧
        g.Read key = (fallback, true) := by
  have hread : Flags.Read { values := some m } key = (false, false) := by
    rw [read_eq_of_lookup, h]
  refine ⟨hread, { values := some (m.insert key fallback) }, ?_, read_insert_self m key fallback⟩
  simp only [Flags.IsEnabled, hread, update_allocated]

/-- A known key in an allocated store: IsEnabled returns the cached value and writes nothing. -/
theorem isEnabled_known_allocated (m : FlagMap) (key : String) (fallback v : Bool)
    (h : m.lookup key = some v) :
    Flags.IsEnabled { values := some m } key fallback = .ok (v, { values := some m }) := by
  have hread : Flags.Read { values := some m } key = (v, true) := by
    rw [read_eq_of_lookup, h]
  simp only [Flags.IsEnabled, hread]

/-! ## Bootstrap from tokens -/

theorem newFlags_single (o : FlagsOption) :
    NewFlags [o] = o { values := some ∅ } := by
  unfold NewFlags
  simp only [List.foldlM_cons, List.foldlM_nil]
  cases o { values := some ∅ } <;> rfl

/-- The loop of WithBootstrapPairs on an allocated map, when every value token parses: it ends
normally; a key whose last pair is pair `i` holds the parsed value of that pair, a key in no
pair is as before. -/
theorem bootstrapLoop_ok : ∀ (tokens : List String) (m : FlagMap),
    tokens.length % 2 = 0 →
    (∀ i v, i % 2 = 1 → tokens[i]? = some v → ∃ b, ParseBool v = .ok b) →
    ∃ m2 : FlagMap, bootstrapLoop tokens { values := some m } = .ok { values := some m2 } ∧
      (∀ i key value, tokens[2 * i]? = some key → tokens[2 * i + 1]? = some value →
        (∀ j, i < j → tokens[2 * j]? ≠ some key) →
        ∃ b, ParseBool value = .ok b ∧ m2.lookup key = some b) ∧
      (∀ key, (∀ j, tokens[2 * j]? ≠ some key) → m2.lookup key = m.lookup key)
  | [], m, _, _ => by
    refine ⟨m, rfl, ?_, fun key _ => rfl⟩
    intro i key value h
    simp at h
  | [_], _, heven, _ => by simp at heven
  | k0 :: v0 :: rest, m, heven, hvalid => by
    obtain ⟨b0, hb0⟩ := hvalid 1 v0 (by decide) (by simp)
    have heven2 : rest.length % 2 = 0 := by
      simp only [List.length_cons] at heven
      omega
    have hvalid2 : ∀ i v, i % 2 = 1 → rest[i]? = some v → ∃ b, ParseBool v = .ok b := by
      intro i v hi hv
      exact hvalid (i + 2) v (by omega) (by simpa using hv)
    obtain ⟨m2, hrun, hlast, hnone⟩ := bootstrapLoop_ok rest (m.insert k0 b0) heven2 hvalid2
    have shift : ∀ j, (k0 :: v0 :: rest)[2 * (j + 1)]? = rest[2 * j]? := by
      intro j
      have : 2 * (j + 1) = 2 * j + 1 + 1 := by omega
      rw [this]
      simp
    have shift1 : ∀ j, (k0 :: v0 :: rest)[2 * (j + 1) + 1]? = rest[2 * j + 1]? := by
      intro j
      have : 2 * (j + 1) + 1 = 2 * j + 1 + 1 + 1 := by omega
      rw [this]
      simp
    refine ⟨m2, ?_, ?_, ?_⟩
    · simp only [bootstrapLoop, hb0, mapAssign_allocated]
      exact hrun
    · intro i key value hkey hvalue hlater
      cases i with
      | zero =>
        simp at hkey hvalue
        subst hkey hvalue
        refine ⟨b0, hb0, ?_⟩
        have : ∀ j, rest[2 * j]? ≠ some k0 := by
          intro j
          rw [← shift j]
          exact hlater (j + 1) (by omega)
        rw [hnone k0 this]
        exact AList.lookup_insert m
      | succ n =>
        rw [shift n] at hkey
        rw [shift1 n] at hvalue
        refine hlast n key value hkey hvalue ?_
        intro j hj
        rw [← shift j]
        exact hlater (j + 1) (by omega)
    · intro key hno
      have hrest : ∀ j, rest[2 * j]? ≠ some key := by
        intro j
        rw [← shift j]
        exact hno (j + 1)
      have hk : key ≠ k0 := by
        intro h
        have := hno 0
        simp [h] at this
      rw [hnone key hrest]
      exact AList.lookup_insert_ne hk

/-- The loop of WithBootstrapPairs panics as soon as one value token does not parse. -/
theorem bootstrapLoop_panics : ∀ (tokens : List String) (s : Flags) (i : Nat) (v : String),
    i % 2 = 1 → tokens[i]? = some v → (∃ e, ParseBool v = .error e) →
    ∃ msg, bootstrapLoop tokens s = .error msg
  | [], _, i, v, _, hv, _ => by simp at hv
  | [_], _, _, _, _, _, _ => ⟨_, rfl⟩
  | k0 :: v0 :: rest, s, i, v, hi, hv, hbad => by
    cases hp : ParseBool v0 with
    | error e => exact ⟨v0 ++ " is not a boolean", by simp only [bootstrapLoop, hp]⟩
    | ok b0 =>
      cases hu : mapAssign s.values k0 b0 with
      | error e => exact ⟨e, by simp only [bootstrapLoop, hp, hu]⟩
      | ok t =>
        have hi2 : 2 ≤ i := by
          rcases Nat.lt_or_ge i 2 with h | h
          · have h1 : i = 1 := by omega
            subst h1
            simp at hv
            subst hv
            obtain ⟨e, he⟩ := hbad
            rw [hp] at he
            cases he
          · exact h
        obtain ⟨n, rfl⟩ : ∃ n, i = n + 2 := ⟨i - 2, by omega⟩
        have hv2 : rest[n]? = some v := by simpa using hv
        have hn : n % 2 = 1 := by omega
        obtain ⟨msg, hmsg⟩ := bootstrapLoop_panics rest { values := t } n v hn hv2 hbad
        exact ⟨msg, by simp only [bootstrapLoop, hp, hu, hmsg]⟩

theorem parseBool_ok_or_error (v : String) :
    (∃ b, ParseBool v = .ok b) ∨ (∃ e, ParseBool v = .error e) := by
  cases h : ParseBool v with
  | error e => exact Or.inr ⟨e, rfl⟩
  | ok b => exact Or.inl ⟨b, rfl⟩

/-- C5: `NewFlags(WithBootstrapPairs(tokens...))` panics exactly when the number of tokens is odd
or a token at an odd position (counting from 0) is not accepted by `strconv.ParseBool`; it
returns a store exactly when the number is even and every such token is accepted. -/
theorem withBootstrapPairs_panics_iff (tokens : List String) :
    ((∃ msg, NewFlags [WithBootstrapPairs tokens] = .error msg) ↔
      (tokens.length % 2 = 1 ∨
        ∃ i v, i % 2 = 1 ∧ tokens[i]? = some v ∧ ∃ e, ParseBool v = .error e)) ∧
    ((∃ f, NewFlags [WithBootstrapPairs tokens] = .ok f) ↔
      (tokens.length % 2 = 0 ∧
        ∀ i v, i % 2 = 1 → tokens[i]? = some v → ∃ b, ParseBool v = .ok b)) := by
  rw [newFlags_single]
  by_cases hodd : tokens.length % 2 = 1
  · have hrun : WithBootstrapPairs tokens { values := some ∅ } = .error "pairs must be even" := by
      simp [WithBootstrapPairs, hodd]
    rw [hrun]
    constructor
    · exact ⟨fun _ => Or.inl hodd, fun _ => ⟨_, rfl⟩⟩
    · constructor
      · rintro ⟨f, hf⟩
        cases hf
      · rintro ⟨h, _⟩
        omega
  · have heven : tokens.length % 2 = 0 := by omega
    have hrun : WithBootstrapPairs tokens { values := some ∅ } =
        bootstrapLoop tokens { values := some ∅ } := by
      simp [WithBootstrapPairs, heven]
    rw [hrun]
    by_cases hbad : ∃ i v, i % 2 = 1 ∧ tokens[i]? = some v ∧ ∃ e, ParseBool v = .error e
    · obtain ⟨i, v, hi, hv, he⟩ := hbad
      obtain ⟨msg, hmsg⟩ := bootstrapLoop_panics tokens { values := some ∅ } i v hi hv he
      rw [hmsg]
      constructor
      · exact ⟨fun _ => Or.inr ⟨i, v, hi, hv, he⟩, fun _ => ⟨msg, rfl⟩⟩
      · constructor
        · rintro ⟨f, hf⟩
          cases hf
        · rintro ⟨_, hall⟩
          obtain ⟨b, hb⟩ := hall i v hi hv
          obtain ⟨e, he⟩ := he
          rw [hb] at he
          cases he
    · have hall : ∀ i v, i % 2 = 1 → tokens[i]? = some v → ∃ b, ParseBool v = .ok b := by
        intro i v hi hv
        rcases parseBool_ok_or_error v with h | h
        · exact h
        · exact absurd ⟨i, v, hi, hv, h⟩ hbad
      obtain ⟨m2, hm2, _⟩ := bootstrapLoop_ok tokens ∅ heven hall
      rw [hm2]
      constructor
      · constructor
        · rintro ⟨msg, hmsg⟩
          cases hmsg
        · rintro (h | h)
          · omega
          · exact absurd h hbad
      · exact ⟨fun _ => ⟨heven, hall⟩, fun _ => ⟨_, rfl⟩⟩

/-- C5, at the two inputs the specification names: an odd number of tokens, and a value token
`notabool`, are both rejected. -/
theorem withBootstrapPairs_panics_iff_witness :
    (∃ msg, NewFlags [WithBootstrapPairs ["a", "true", "b"]] = .error msg) ∧
      (∃ msg, NewFlags [WithBootstrapPairs ["a", "notabool"]] = .error msg) :=
  ⟨(withBootstrapPairs_panics_iff ["a", "true", "b"]).1.mpr (Or.inl (by decide)),
   (withBootstrapPairs_panics_iff ["a", "notabool"]).1.mpr
     (Or.inr ⟨1, "notabool", by decide, by decide, _, rfl⟩)⟩

/-- C6: for an even number of tokens whose value tokens all parse,
`NewFlags(WithBootstrapPairs(tokens...))` returns a store in which a key whose last pair is
pair `i` reads as the parsed value of that pair, found; a key of no pair is not found. -/
theorem withBootstrapPairs_read (tokens : List String)
    (heven : tokens.length % 2 = 0)
    (hvalid : ∀ i v, i % 2 = 1 → tokens[i]? = some v → ∃ b, ParseBool v = .ok b) :
    ∃ f, NewFlags [WithBootstrapPairs tokens] = .ok f ∧
      (∀ i key value, tokens[2 * i]? = some key → tokens[2 * i + 1]? = some value →
        (∀ j, i < j → tokens[2 * j]? ≠ some key) →
        ∃ b, ParseBool value = .ok b ∧ f.Read key = (b, true)) ∧
      (∀ key, (∀ j, tokens[2 * j]? ≠ some key) → f.Read key = (false, false)) := by
  obtain ⟨m2, hrun, hlast, hnone⟩ := bootstrapLoop_ok tokens ∅ heven hvalid
  refine ⟨{ values := some m2 }, ?_, ?_, ?_⟩
  · rw [newFlags_single]
    simp only [WithBootstrapPairs, heven]
    simpa using hrun
  · intro i key value hk hv hlater
    obtain ⟨b, hb, hlook⟩ := hlast i key value hk hv hlater
    exact ⟨b, hb, by rw [read_eq_of_lookup, hlook]⟩
  · intro key hno
    rw [read_eq_of_lookup, hnone key hno]
    rfl

/-- C6 at the tokens a, true, b, 0: the store reads a as (true, true) and b as (false, true). -/
theorem withBootstrapPairs_read_witness :
    ∃ f, NewFlags [WithBootstrapPairs ["a", "true", "b", "0"]] = .ok f ∧
      f.Read "a" = (true, true) ∧ f.Read "b" = (false, true) ∧ f.Read "c" = (false, false) := by
  have hvalid : ∀ i v, i % 2 = 1 → ["a", "true", "b", "0"][i]? = some v →
      ∃ b, ParseBool v = .ok b := by
    intro i v hi hv
    match i, hi, hv with
    | 1, _, hv =>
      simp at hv
      subst hv
      exact ⟨true, by decide⟩
    | 3, _, hv =>
      simp at hv
      subst hv
      exact ⟨false, by decide⟩
    | n + 4, _, hv => simp at hv
  obtain ⟨f, hf, hlast, hnone⟩ :=
    withBootstrapPairs_read ["a", "true", "b", "0"] (by decide) hvalid
  refine ⟨f, hf, ?_, ?_, ?_⟩
  · obtain ⟨b, hb, hr⟩ := hlast 0 "a" "true" (by decide) (by decide) (by
      intro j hj
      match j, hj with
      | 1, _ => decide
      | n + 2, _ =>
        rw [List.getElem?_eq_none (by simp only [List.length_cons, List.length_nil]; omega)]
        simp)
    have : b = true := by
      have h2 : ParseBool "true" = .ok true := by decide
      rw [h2] at hb
      cases hb
      rfl
    rw [hr, this]
  · obtain ⟨b, hb, hr⟩ := hlast 1 "b" "0" (by decide) (by decide) (by
      intro j hj
      match j, hj with
      | n + 2, _ =>
        rw [List.getElem?_eq_none (by simp only [List.length_cons, List.length_nil]; omega)]
        simp)
    have : b = false := by
      have h2 : ParseBool "0" = .ok false := by decide
      rw [h2] at hb
      cases hb
      rfl
    rw [hr, this]
  · apply hnone
    intro j
    match j with
    | 0 => decide
    | 1 => decide
    | n + 2 =>
      rw [List.getElem?_eq_none (by simp only [List.length_cons, List.length_nil]; omega)]
      simp

/-! ## The nil map -/

/-- C3, where the code departs: the store built by `NewFlags(WithBootstrapMap(nil))` holds no
key, Read reports not found, and IsEnabled panics on the write to the nil map instead of
returning the fallback, for either fallback. -/
theorem isEnabled_unknown_nil_map_panics :
    ∃ f, NewFlags [WithBootstrapMap none] = .ok f ∧
      f.Read "key" = (false, false) ∧
      f.IsEnabled "key" true = .error "assignment to entry in nil map" ∧
      f.IsEnabled "key" false = .error "assignment to entry in nil map" :=
  ⟨{ values := none }, rfl, rfl, rfl, rfl⟩

/-- C4, where the code departs: in the store built by `NewFlags(WithBootstrapMap(nil))`
BatchUpdate of a mapping with one entry panics, so the entry does not read back. -/
theorem batchUpdate_nil_map_panics :
    ∃ f, NewFlags [WithBootstrapMap none] = .ok f ∧
      f.BatchUpdate (some ((∅ : FlagMap).insert "key1" true)) =
        .error "assignment to entry in nil map" :=
  ⟨{ values := none }, rfl, by decide⟩

/-- C7, where the code departs: construction with `WithBootstrapMap(nil)` succeeds, and then
`IsEnabled(key, fallback)` panics for every key and fallback. -/
theorem read_path_panics_after_nil_bootstrap (key : String) (fallback : Bool) :
    ∃ f, NewFlags [Bootstrap.toOption (.map none)] = .ok f ∧
      f.IsEnabled key fallback = .error "assignment to entry in nil map" :=
  ⟨{ values := none }, rfl, rfl⟩

/-! ## NewRefresher -/

/-- A nil store makes NewRefresher return the error and no Refresher, whatever else is given. -/
theorem newRefresher_nil_flags (fetchFn : Option FetchFn) (options : List RefresherOption) :
    NewRefresher none fetchFn options = .ok (none, some "flags cannot be nil") := rfl

/-- C8, where the code departs: with a store and a nil fetch function NewRefresher returns a
Refresher and no error; the Refresher holds the nil function, and its first refresh cycle
over a tracked key dies calling it. -/
theorem newRefresher_accepts_nil_fetchFn :
    ∃ r, NewRefresher (some { values := some ((∅ : FlagMap).insert "key" false) }) none [] =
        .ok (some r, none) ∧
      r.fetchFn = none ∧
      (exec r false 1 [.tick, .go "key", .fetch "key"]).map (fun s => s.phase) =
        some Phase.crashed :=
  ⟨_, rfl, rfl, by decide⟩

/-! ## The moves of RefreshCache, one by one -/

theorem step_tick {r : Refresher} {s t : State} (h : step r .tick s = some t) :
    s.phase = .waiting ∧
      ((s.flags = none ∧ t = { s with phase := .crashed }) ∨
        ∃ f, s.flags = some f ∧
          t = { s with
            phase := .ranging
            ticks := s.ticks + 1
            gCtxDone := s.ctxDone
            gErr := none
            pending := mapKeys f.values
            running := []
            sending := []
            auxMap := ∅
            closed := false
            calls := []
            hookCalls := 0 }) := by
  simp only [step] at h
  split at h
  · rename_i hp
    refine ⟨hp, ?_⟩
    split at h
    · rename_i hf
      exact Or.inl ⟨hf, (Option.some.inj h).symm⟩
    · rename_i f hf
      exact Or.inr ⟨f, hf, (Option.some.inj h).symm⟩
  · cases h

theorem step_go {r : Refresher} {k : String} {s t : State} (h : step r (.go k) s = some t) :
    s.phase = .ranging ∧ k ∈ s.pending ∧
      (r.fetchMaxConcurrency < 0 ∨
        ((s.running.length + s.sending.length : Nat) : Int) < r.fetchMaxConcurrency) ∧
      t = { s with pending := s.pending.erase k, running := k :: s.running } := by
  simp only [step] at h
  split at h
  · rename_i hc
    exact ⟨hc.1, hc.2.1, hc.2.2, (Option.some.inj h).symm⟩
  · cases h

theorem step_endRange {r : Refresher} {s t : State} (h : step r .endRange s = some t) :
    s.phase = .ranging ∧ s.pending = [] ∧ t = { s with phase := .collecting } := by
  simp only [step] at h
  split at h
  · rename_i hc
    exact ⟨hc.1, hc.2, (Option.some.inj h).symm⟩
  · cases h

theorem step_fetch {r : Refresher} {k : String} {s t : State} (h : step r (.fetch k) s = some t) :
    s.inCycle ∧ k ∈ s.running ∧
      ((r.fetchFn = none ∧ t = { s with phase := .crashed }) ∨
        ∃ fetchFn, r.fetchFn = some fetchFn ∧
          ((∃ e, (fetchFn s.ticks s.gCtxDone k).err = some e ∧
              t = afterFailure s k e (fetchFn s.ticks s.gCtxDone k)) ∨
            ((fetchFn s.ticks s.gCtxDone k).err = none ∧
              t = afterSuccess s k (fetchFn s.ticks s.gCtxDone k)))) := by
  simp only [step] at h
  split at h
  · rename_i hc
    refine ⟨hc.1, hc.2, ?_⟩
    split at h
    · rename_i hf
      exact Or.inl ⟨hf, (Option.some.inj h).symm⟩
    · rename_i fetchFn hf
      refine Or.inr ⟨fetchFn, hf, ?_⟩
      split at h
      · rename_i e he
        exact Or.inl ⟨e, he, (Option.some.inj h).symm⟩
      · rename_i he
        exact Or.inr ⟨he, (Option.some.inj h).symm⟩
  · cases h

theorem step_recv {r : Refresher} {k : String} {v : Bool} {s t : State}
    (h : step r (.recv k v) s = some t) :
    s.phase = .collecting ∧ (k, v) ∈ s.sending ∧
      t = { s with sending := s.sending.erase (k, v), auxMap := s.auxMap.insert k v } := by
  simp only [step] at h
  split at h
  · rename_i hc
    exact ⟨hc.1, hc.2, (Option.some.inj h).symm⟩
  · cases h

theorem step_wait {r : Refresher} {s t : State} (h : step r .wait s = some t) :
    s.phase = .collecting ∧ s.closed = false ∧ s.running = [] ∧ s.sending = [] ∧
      t = { s with
        gCtxDone := true
        closed := true
        hookCalls :=
          if s.gErr.isSome && hookFires r s.failedAttempts s.failedAttemptsDuration
          then s.hookCalls + 1 else s.hookCalls } := by
  simp only [step] at h
  split at h
  · rename_i hc
    exact ⟨hc.1, hc.2.1, hc.2.2.1, hc.2.2.2, (Option.some.inj h).symm⟩
  · cases h

theorem step_merge {r : Refresher} {s t : State} (h : step r .merge s = some t) :
    s.phase = .collecting ∧ s.closed = true ∧
      ((s.flags = none ∧ t = { s with phase := .crashed }) ∨
        ∃ f, s.flags = some f ∧
          ((∃ e, f.BatchUpdate (some s.auxMap) = .error e ∧ t = { s with phase := .crashed }) ∨
            ∃ g, f.BatchUpdate (some s.auxMap) = .ok g ∧
              t = { s with
                phase := .waiting
                flags := some g
                failedAttempts := 0
                failedAttemptsDuration := 0 })) := by
  simp only [step] at h
  split at h
  · rename_i hc
    refine ⟨hc.1, hc.2, ?_⟩
    split at h
    · rename_i hf
      exact Or.inl ⟨hf, (Option.some.inj h).symm⟩
    · rename_i f hf
      refine Or.inr ⟨f, hf, ?_⟩
      split at h
      · rename_i e he
        exact Or.inl ⟨e, he, (Option.some.inj h).symm⟩
      · rename_i g hg
        exact Or.inr ⟨g, hg, (Option.some.inj h).symm⟩
  · cases h

theorem step_cancel {r : Refresher} {s t : State} (h : step r .cancel s = some t) :
    t = { s with ctxDone := true, gCtxDone := true } := by
  simp only [step] at h
  exact (Option.some.inj h).symm

theorem step_ret {r : Refresher} {s t : State} (h : step r .ret s = some t) :
    s.phase = .waiting ∧ s.ctxDone = true ∧ t = { s with phase := .returned } := by
  simp only [step] at h
  split at h
  · rename_i hc
    exact ⟨hc.1, hc.2, (Option.some.inj h).symm⟩
  · cases h

/-- A property kept by every move is kept by every run. -/
theorem run_keeps {r : Refresher} (P : State → Prop)
    (hstep : ∀ a s t, P s → step r a s = some t → P t) :
    ∀ acts s t, P s → run r acts s = some t → P t := by
  intro acts
  induction acts with
  | nil =>
    intro s t hs h
    simp only [run] at h
    cases h
    exact hs
  | cons a rest ih =>
    intro s t hs h
    simp only [run] at h
    split at h
    · cases h
    · rename_i u hu
      exact ih u t (hstep a s u hs hu) h

/-! ## The counters, the group and the hook -/

theorem failCount_nil : failCount [] = 0 := rfl

theorem failDuration_nil : failDuration [] = 0 := rfl

theorem failCount_cons (c : Call) (calls : List Call) :
    failCount (c :: calls) = if c.failed = true then failCount calls + 1 else failCount calls := by
  unfold failCount
  by_cases h : c.failed = true <;> simp [List.filter_cons, h]

theorem failDuration_cons (c : Call) (calls : List Call) :
    failDuration (c :: calls) =
      if c.failed = true then c.ret.elapsed + failDuration calls else failDuration calls := by
  unfold failDuration
  by_cases h : c.failed = true <;> simp [List.filter_cons, h]

theorem wrapInt32_succ (n : Nat) :
    wrapInt32 (wrapInt32 (n : Int) + 1) = wrapInt32 ((n + 1 : Nat) : Int) := by
  unfold wrapInt32
  push_cast
  omega

theorem wrapInt64_add (n e : Nat) :
    wrapInt64 (wrapInt64 (n : Int) + (e : Int)) = wrapInt64 ((e + n : Nat) : Int) := by
  unfold wrapInt64
  push_cast
  omega

theorem inv_start {r : Refresher} {ctxDone : Bool} {d : Int} {s : State}
    (h : RefreshCache r ctxDone d = .ok s) : Inv r s := by
  unfold RefreshCache at h
  split at h
  · cases h
  · cases h
    refine ⟨?_, ?_, ?_, ?_, ?_, ?_, ?_, ?_, ?_, ?_⟩ <;>
      simp [entryState, State.idle, State.inCycle, hookDue, failCount, LogOK]

theorem inv_step {r : Refresher} (a : Action) (s t : State) (hs : Inv r s)
    (h : step r a s = some t) : Inv r t := by
  cases a with
  | tick =>
    obtain ⟨hp, ⟨hf, rfl⟩ | ⟨f, hf, rfl⟩⟩ := step_tick h
    · refine ⟨?_, ?_, ?_, ?_, ?_, ?_, ?_, ?_, ?_, ?_⟩ <;>
        simp [State.idle, State.inCycle]
      · exact hs.hookOnce
      · exact hs.log
    · have hz := hs.countersIdle (Or.inl hp)
      refine ⟨?_, ?_, ?_, ?_, ?_, ?_, ?_, ?_, ?_, ?_⟩ <;>
        simp [State.idle, State.inCycle, failCount_nil, failDuration_nil, hz, wrapInt32, wrapInt64, LogOK]
  | go k =>
    obtain ⟨hp, _, _, rfl⟩ := step_go h
    have hopen := hs.openRanging hp
    exact ⟨hs.countersIdle, hs.countersCycle, hs.groupErr, hs.groupCtx, hs.openRanging,
      fun _ hcl => by simp [hopen] at hcl, hs.hookOpen, hs.hookDone, hs.hookOnce, hs.log⟩
  | endRange =>
    obtain ⟨hp, _, rfl⟩ := step_endRange h
    have hopen : s.closed = false := hs.openRanging hp
    have hin : s.inCycle := Or.inl hp
    refine ⟨?_, fun _ => hs.countersCycle hin, fun _ => hs.groupErr hin,
      fun _ => hs.groupCtx hin, ?_, ?_, fun _ => hs.hookOpen hin, ?_, hs.hookOnce, hs.log⟩
    · intro hi
      simp [State.idle] at hi
    · intro hr
      simp at hr
    · intro _ hcl
      simp [hopen] at hcl
    · intro hd
      simp [State.idle, hopen] at hd
  | fetch k =>
    obtain ⟨hin, hk, hcase⟩ := step_fetch h
    have hopen : s.closed = false := by
      cases hc : s.closed with
      | false => rfl
      | true =>
        have := hs.quiet hin hc
        simp [this] at hk
    rcases hcase with ⟨_, rfl⟩ | ⟨fetchFn, _, ⟨e, he, rfl⟩ | ⟨he, rfl⟩⟩
    · refine ⟨?_, ?_, ?_, ?_, ?_, ?_, ?_, ?_, hs.hookOnce, hs.log⟩ <;>
        simp [State.idle, State.inCycle]
    · have hfail : Call.failed
          { key := k, ctxDone := s.gCtxDone, outerDone := s.ctxDone,
            ret := fetchFn s.ticks s.gCtxDone k } = true := by
        simp [Call.failed, he]
      have hc := hs.countersCycle hin
      refine ⟨?_, ?_, ?_, ?_, hs.openRanging, ?_, hs.hookOpen, ?_, hs.hookOnce, ?_⟩
      · intro hi
        have := hs.countersIdle hi
        rcases hin with h1 | h1 <;> rcases hi with h2 | h2 <;> simp [afterFailure, h1] at h2
      · intro _
        simp only [afterFailure, failCount_cons, failDuration_cons, hfail, if_true]
        rw [hc.1, hc.2, wrapInt32_succ, wrapInt64_add]
        exact ⟨rfl, rfl⟩
      · intro _
        simp only [afterFailure, failCount_cons, hfail, if_true]
        constructor
        · intro _
          omega
        · intro _
          cases s.gErr <;> rfl
      · intro _ _
        simp [afterFailure, hfail]
      · intro _ hcl
        simp [afterFailure, hopen] at hcl
      · intro hd
        rcases hd with hi | ⟨_, hcl⟩
        · rcases hin with h1 | h1 <;> rcases hi with h2 | h2 <;> simp [afterFailure, h1] at h2
        · simp [afterFailure, hopen] at hcl
      · exact ⟨by simpa [afterFailure] using hs.groupCtx hin hopen, hs.log⟩
    · have hfail : Call.failed
          { key := k, ctxDone := s.gCtxDone, outerDone := s.ctxDone,
            ret := fetchFn s.ticks s.gCtxDone k } = false := by
        simp [Call.failed, he]
      refine ⟨?_, ?_, ?_, ?_, hs.openRanging, ?_, hs.hookOpen, ?_, hs.hookOnce, ?_⟩
      · intro hi
        rcases hin with h1 | h1 <;> rcases hi with h2 | h2 <;> simp [afterSuccess, h1] at h2
      · intro _
        simp only [afterSuccess, failCount_cons, failDuration_cons, hfail]
        exact hs.countersCycle hin
      · intro _
        simp only [afterSuccess, failCount_cons, hfail]
        exact hs.groupErr hin
      · intro _ _
        simp only [afterSuccess, List.any_cons, hfail, Bool.false_or]
        exact hs.groupCtx hin hopen
      · intro _ hcl
        simp [afterSuccess, hopen] at hcl
      · intro hd
        rcases hd with hi | ⟨_, hcl⟩
        · rcases hin with h1 | h1 <;> rcases hi with h2 | h2 <;> simp [afterSuccess, h1] at h2
        · simp [afterSuccess, hopen] at hcl
      · exact ⟨by simpa [afterSuccess] using hs.groupCtx hin hopen, hs.log⟩
  | recv k v =>
    obtain ⟨_, _, rfl⟩ := step_recv h
    exact ⟨hs.countersIdle, hs.countersCycle, hs.groupErr, hs.groupCtx, hs.openRanging,
      hs.quiet, hs.hookOpen, hs.hookDone, hs.hookOnce, hs.log⟩
  | wait =>
    obtain ⟨hp, hopen, hrun, _, rfl⟩ := step_wait h
    have hin : s.inCycle := Or.inr hp
    have hc := hs.countersCycle hin
    have hzero := hs.hookOpen hin hopen
    have hcalls : (if (s.gErr.isSome && hookFires r s.failedAttempts s.failedAttemptsDuration) = true
        then s.hookCalls + 1 else s.hookCalls) = if hookDue r s.calls = true then 1 else 0 := by
      have hg := hs.groupErr hin
      have hb : s.gErr.isSome = decide (0 < failCount s.calls) := by
        cases hgs : s.gErr.isSome with
        | true => simp [hg.mp hgs]
        | false =>
          have : ¬ 0 < failCount s.calls := fun hpos => by
            have := hg.mpr hpos
            simp [hgs] at this
          simp [this]
      rw [hzero, hb, hc.1, hc.2]
      rfl
    refine ⟨?_, fun _ => hc, fun _ => hs.groupErr hin, ?_, ?_, fun _ _ => hrun, ?_, ?_, ?_, hs.log⟩
    · intro hi
      rcases hi with h2 | h2 <;> simp [hp] at h2
    · intro _ hcl
      simp at hcl
    · intro hr
      simp [hp] at hr
    · intro _ hcl
      simp at hcl
    · intro _
      exact hcalls
    · show (if (s.gErr.isSome && hookFires r s.failedAttempts s.failedAttemptsDuration) = true
        then s.hookCalls + 1 else s.hookCalls) ≤ 1
      rw [hcalls]
      split <;> omega
  | merge =>
    obtain ⟨hp, hcl, hcase⟩ := step_merge h
    have hin : s.inCycle := Or.inr hp
    rcases hcase with ⟨_, rfl⟩ | ⟨f, _, ⟨e, _, rfl⟩ | ⟨g, _, rfl⟩⟩
    · refine ⟨?_, ?_, ?_, ?_, ?_, ?_, ?_, ?_, hs.hookOnce, hs.log⟩ <;>
        simp [State.idle, State.inCycle]
    · refine ⟨?_, ?_, ?_, ?_, ?_, ?_, ?_, ?_, hs.hookOnce, hs.log⟩ <;>
        simp [State.idle, State.inCycle]
    · refine ⟨fun _ => ⟨rfl, rfl⟩, ?_, ?_, ?_, ?_, ?_, ?_,
        fun _ => hs.hookDone (Or.inr ⟨hin, hcl⟩), hs.hookOnce, hs.log⟩ <;>
        simp [State.inCycle]
  | cancel =>
    obtain rfl := step_cancel h
    refine ⟨hs.countersIdle, hs.countersCycle, hs.groupErr, ?_, hs.openRanging,
      hs.quiet, hs.hookOpen, hs.hookDone, hs.hookOnce, hs.log⟩
    intro _ _
    simp
  | ret =>
    obtain ⟨hp, _, rfl⟩ := step_ret h
    refine ⟨fun _ => hs.countersIdle (Or.inl hp), ?_, ?_, ?_, ?_, ?_, ?_,
      fun _ => hs.hookDone (Or.inl (Or.inl hp)), hs.hookOnce, hs.log⟩ <;>
      simp [State.inCycle]



theorem inv_exec {r : Refresher} {ctxDone : Bool} {d : Int} {acts : List Action} {s : State}
    (h : exec r ctxDone d acts = some s) : Inv r s := by
  unfold exec at h
  split at h
  · cases h
  · rename_i s0 hs0
    exact run_keeps (Inv r) inv_step acts s0 s (inv_start hs0) h

theorem hookDue_iff (r : Refresher) (calls : List Call) :
    hookDue r calls = true ↔
      r.failedAttemptsFn.isSome = true ∧ 0 < failCount calls ∧
        (r.failedAttemptsMaxCount ≤ wrapInt32 (failCount calls) ∨
          r.failedAttemptsMaxDuration < wrapInt64 (failDuration calls)) := by
  simp only [hookDue, hookFires, Bool.and_eq_true, Bool.or_eq_true, decide_eq_true_eq, ge_iff_le,
    gt_iff_lt]
  constructor <;> rintro ⟨a, b, c⟩ <;> exact ⟨b, a, c⟩

theorem wrapInt32_small (n : Nat) (h : n < 2147483648) : wrapInt32 (n : Int) = (n : Int) := by
  unfold wrapInt32
  omega

theorem wrapInt64_small (n : Nat) (h : n < 9223372036854775808) :
    wrapInt64 (n : Int) = (n : Int) := by
  unfold wrapInt64
  omega

theorem refresherAB_built :
    NewRefresher (some storeAB) (some fetchAB)
        [WithFailedAttemptsHook (some ()), WithFailedAttemptsMaxCount 1] =
      .ok (some refresherAB, none) := rfl

/-- C2: in every state an execution of `RefreshCache` reaches, the hook has been called at most
once in the current cycle, and not at all before `g.Wait()` has returned; once it has returned,
and when the cycle is over, the hook has been called exactly once if and only if a hook is
set, some fetch of the cycle failed, and the failure counter (the `int32` count of the failed
fetches) is at least the maximum count or the duration counter (the `int64` sum of their
times) exceeds the maximum duration. -/
theorem hook_once_per_cycle (r : Refresher) (ctxDone : Bool) (d : Int) (acts : List Action)
    (s : State) (h : exec r ctxDone d acts = some s) :
    s.hookCalls ≤ 1 ∧
      (s.inCycle → s.closed = false → s.hookCalls = 0) ∧
      (s.idle ∨ (s.inCycle ∧ s.closed = true) →
        (s.hookCalls = 1 ↔
          r.failedAttemptsFn.isSome = true ∧ 0 < failCount s.calls ∧
            (r.failedAttemptsMaxCount ≤ wrapInt32 (failCount s.calls) ∨
              r.failedAttemptsMaxDuration < wrapInt64 (failDuration s.calls)))) := by
  have hinv := inv_exec h
  refine ⟨hinv.hookOnce, hinv.hookOpen, ?_⟩
  intro hp
  rw [← hookDue_iff, hinv.hookDone hp]
  split <;> simp_all

/-- C2 on the example: maximum count 1, the fetch of b fails, the hook is called once. -/
theorem hook_once_per_cycle_witness :
    ∃ s, exec refresherAB false 1 cycleAB = some s ∧ s.phase = .waiting ∧
      failCount s.calls = 1 ∧ s.hookCalls = 1 ∧
      (s.hookCalls ≤ 1 ∧
        (s.inCycle → s.closed = false → s.hookCalls = 0) ∧
        (s.idle ∨ (s.inCycle ∧ s.closed = true) →
          (s.hookCalls = 1 ↔
            refresherAB.failedAttemptsFn.isSome = true ∧ 0 < failCount s.calls ∧
              (refresherAB.failedAttemptsMaxCount ≤ wrapInt32 (failCount s.calls) ∨
                refresherAB.failedAttemptsMaxDuration < wrapInt64 (failDuration s.calls))))) :=
  ⟨_, rfl, rfl, rfl, rfl, hook_once_per_cycle refresherAB false 1 cycleAB _ rfl⟩

/-- C9: in every state an execution of `RefreshCache` reaches, whatever cycles came before:
between cycles, where the next cycle starts, both counters are 0; inside a cycle the failure
counter is the `int32` count of the fetches that failed in this cycle and the duration counter
the `int64` sum of their times; so below 2^31 failures the count tested against the threshold
is the number of fetches that failed in this cycle alone (and below 2^63 ns the sum of their
times). -/
theorem counters_scoped_to_cycle (r : Refresher) (ctxDone : Bool) (d : Int) (acts : List Action)
    (s : State) (h : exec r ctxDone d acts = some s) :
    (s.phase = .waiting → s.failedAttempts = 0 ∧ s.failedAttemptsDuration = 0) ∧
      (s.inCycle →
        s.failedAttempts = wrapInt32 (failCount s.calls) ∧
          s.failedAttemptsDuration = wrapInt64 (failDuration s.calls)) ∧
      (s.inCycle → failCount s.calls < 2147483648 →
        s.failedAttempts = (failCount s.calls : Int)) ∧
      (s.inCycle → failDuration s.calls < 9223372036854775808 →
        s.failedAttemptsDuration = (failDuration s.calls : Int)) := by
  have hinv := inv_exec h
  refine ⟨fun hp => hinv.countersIdle (Or.inl hp), hinv.countersCycle, ?_, ?_⟩
  · intro hin hsmall
    rw [(hinv.countersCycle hin).1, wrapInt32_small _ hsmall]
  · intro hin hsmall
    rw [(hinv.countersCycle hin).2, wrapInt64_small _ hsmall]

/-- C9 on the example, run twice: when `g.Wait()` returns in the second cycle the failure
counter is 1, the failures of this cycle, not 2. -/
theorem counters_scoped_to_cycle_witness :
    ∃ s, exec refresherAB false 1 (cycleAB ++ cycleABOpen) = some s ∧
      s.ticks = 2 ∧ s.inCycle ∧ failCount s.calls = 1 ∧ s.failedAttempts = 1 ∧
      ((s.phase = .waiting → s.failedAttempts = 0 ∧ s.failedAttemptsDuration = 0) ∧
        (s.inCycle →
          s.failedAttempts = wrapInt32 (failCount s.calls) ∧
            s.failedAttemptsDuration = wrapInt64 (failDuration s.calls)) ∧
        (s.inCycle → failCount s.calls < 2147483648 →
          s.failedAttempts = (failCount s.calls : Int)) ∧
        (s.inCycle → failDuration s.calls < 9223372036854775808 →
          s.failedAttemptsDuration = (failDuration s.calls : Int))) :=
  ⟨_, rfl, rfl, Or.inr rfl, rfl, rfl,
    counters_scoped_to_cycle refresherAB false 1 (cycleAB ++ cycleABOpen) _ rfl⟩

/-- In the moves of `step`, where a call and the return of its task are one move: in the
example, with the outer context never cancelled, the fetch of a is called with a cancelled
context, because the fetch of b had returned an error. -/
theorem sibling_failure_cancels_context :
    ¬ ∀ (r : Refresher) (ctxDone : Bool) (d : Int) (acts : List Action) (s : State),
      exec r ctxDone d acts = some s →
        ∀ c ∈ s.calls, c.ctxDone = true → c.outerDone = true := by
  intro hclaim
  have h := hclaim refresherAB false 1
    [.tick, .go "a", .go "b", .fetch "b", .fetch "a"] _ rfl
    { key := "a", ctxDone := true, outerDone := false, ret := fetchAB 1 true "a" }
    (List.mem_cons_self _ _) rfl
  cases h

/-! ## One cycle and the store -/

theorem call_unique {calls : List Call} (hnd : (calls.map Call.key).Nodup) {c1 c2 : Call}
    (h1 : c1 ∈ calls) (h2 : c2 ∈ calls) (hk : c1.key = c2.key) : c1 = c2 :=
  List.inj_on_of_nodup_map hnd h1 h2 hk

theorem moved_perm {k : String} {p q : List String} (hk : k ∈ p) :
    (p.erase k ++ k :: q).Perm (p ++ q) := by
  have h1 : (p.erase k ++ k :: q).Perm (k :: (p.erase k ++ q)) := List.perm_middle
  have h2 : (k :: (p.erase k ++ q)).Perm (p ++ q) := by
    have := (List.perm_cons_erase hk).symm
    exact List.Perm.append_right q this
  exact h1.trans h2

theorem not_idle_of_inCycle {s : State} (h : s.inCycle) : ¬ s.idle := by
  intro hi
  rcases h with h | h <;> rcases hi with hi | hi <;> simp [h] at hi

theorem cyc_tick {r : Refresher} {s t : State} {f : Flags}
    (hf : s.flags = some f) (h : step r .tick s = some t) :
    Cyc r f (s.ticks + 1) t ∧ t.phase = .ranging := by
  obtain ⟨_, ⟨hnone, _⟩ | ⟨f2, hf2, rfl⟩⟩ := step_tick h
  · simp [hf] at hnone
  · rw [hf] at hf2
    cases hf2
    refine ⟨?_, rfl⟩
    exact
      { ticks := rfl
        flags := fun _ => hf
        nodup := fun _ => by
          simp only [List.append_nil]
          cases hv : f.values with
          | none => simp [mapKeys]
          | some m => simpa [mapKeys] using m.keys_nodup
        fresh := fun _ _ _ c hc => by simp at hc
        callsNodup := by simp
        cover := fun _ k hk => Or.inl (by simpa using hk)
        trackedCalls := fun c hc => by simp at hc
        trackedTasks := fun _ k hk => by simpa using hk
        fetched := fun c hc => by simp at hc
        okCalls := fun _ c hc => by simp at hc
        badCalls := fun _ c hc => by simp at hc
        sendingCalls := fun _ k v hkv => by simp at hkv
        auxCalls := fun _ k hk => by
          have : k ∈ (∅ : FlagMap) := AList.mem_keys.mpr hk
          exact absurd this (AList.not_mem_empty k)
        collecting := fun hc => by simp at hc
        closedQuiet := fun _ hc => by simp at hc
        done := fun hi => by simp [State.idle] at hi }


theorem alist_eq_empty {m : FlagMap} (h : ∀ k, k ∉ m.keys) : m = ∅ := by
  apply AList.ext
  have hk : m.keys = [] := List.eq_nil_iff_forall_not_mem.mpr h
  have : m.entries.map Sigma.fst = [] := hk
  simpa using this

/-- When the result channel is closed, the merge does not panic, and the store it leaves holds
the fetched value for every tracked key whose call succeeded and is as before elsewhere. -/
theorem merge_ok {r : Refresher} {f : Flags} {n : Nat} {s : State} (hs : Cyc r f n s)
    (hin : s.inCycle) (hcl : s.closed = true) :
    ∃ g, f.BatchUpdate (some s.auxMap) = .ok g ∧
      (∀ k ∈ mapKeys f.values, ∃ c ∈ s.calls, c.key = k ∧
        g.Read k = if c.failed = true then f.Read k else (c.ret.isEnabled, true)) ∧
      (∀ k, k ∉ mapKeys f.values → g.Read k = f.Read k) := by
  obtain ⟨hcol, hrun, hsend⟩ := hs.closedQuiet hin hcl
  have hpend := hs.collecting hcol
  obtain ⟨values⟩ := f
  cases values with
  | none =>
    have hempty : s.auxMap = ∅ := by
      apply alist_eq_empty
      intro k hk
      obtain ⟨c, hc, _⟩ := hs.auxCalls hin k hk
      have := hs.trackedCalls c hc
      simp [mapKeys] at this
    rw [hempty]
    refine ⟨{ values := none }, rfl, ?_, fun k _ => rfl⟩
    intro k hk
    simp [mapKeys] at hk
  | some m =>
    obtain ⟨m2, hrun2, hlook⟩ := batchUpdate_allocated m s.auxMap
    refine ⟨{ values := some m2 }, hrun2, ?_, ?_⟩
    · intro k hk
      rcases hs.cover hin k hk with hmem | ⟨c, hc, hck⟩
      · simp [hpend, hrun] at hmem
      · refine ⟨c, hc, hck, ?_⟩
        cases hfail : c.failed with
        | true =>
          have hnone := hs.badCalls hin c hc hfail
          rw [hck] at hnone
          simp [read_eq_of_lookup, hlook k, hnone]
        | false =>
          have hsome := hs.okCalls hin c hc hfail
          rw [hsend, hck] at hsome
          simp at hsome
          simp [read_eq_of_lookup, hlook k, hsome]
    · intro k hk
      have hnone : s.auxMap.lookup k = none := by
        rw [AList.lookup_eq_none]
        intro hmem
        obtain ⟨c, hc, hck⟩ := hs.auxCalls hin k (AList.mem_keys.mp hmem)
        exact hk (hck ▸ hs.trackedCalls c hc)
      simp [read_eq_of_lookup, hlook k, hnone]


theorem cyc_crashed {r : Refresher} {f : Flags} {n : Nat} {s : State} (hs : Cyc r f n s) :
    Cyc r f n { s with phase := .crashed } :=
  { ticks := hs.ticks
    flags := fun h => by simp [State.inCycle] at h
    nodup := fun h => by simp [State.inCycle] at h
    fresh := fun h => by simp [State.inCycle] at h
    callsNodup := hs.callsNodup
    cover := fun h => by simp [State.inCycle] at h
    trackedCalls := hs.trackedCalls
    trackedTasks := fun h => by simp [State.inCycle] at h
    fetched := hs.fetched
    okCalls := fun h => by simp [State.inCycle] at h
    badCalls := fun h => by simp [State.inCycle] at h
    sendingCalls := fun h => by simp [State.inCycle] at h
    auxCalls := fun h => by simp [State.inCycle] at h
    collecting := fun h => by simp at h
    closedQuiet := fun h => by simp [State.inCycle] at h
    done := fun h => by simp [State.idle] at h }

theorem cyc_step {r : Refresher} {f : Flags} {n : Nat} (a : Action) (s t : State)
    (ha : a ≠ .tick) (hs : Cyc r f n s) (h : step r a s = some t) : Cyc r f n t := by
  cases a with
  | tick => exact absurd rfl ha
  | go k =>
    obtain ⟨hp, hk, _, rfl⟩ := step_go h
    have hin : s.inCycle := Or.inl hp
    have hperm := moved_perm (q := s.running) hk
    have hmem : ∀ x, x ∈ s.pending.erase k ++ k :: s.running ↔ x ∈ s.pending ++ s.running :=
      fun x => hperm.mem_iff
    exact
      { ticks := hs.ticks
        flags := hs.flags
        nodup := fun _ => (hperm.nodup_iff).mpr (hs.nodup hin)
        fresh := fun _ x hx => hs.fresh hin x ((hmem x).mp hx)
        callsNodup := hs.callsNodup
        cover := fun _ x hx => by
          rcases hs.cover hin x hx with h1 | h1
          · exact Or.inl ((hmem x).mpr h1)
          · exact Or.inr h1
        trackedCalls := hs.trackedCalls
        trackedTasks := fun _ x hx => hs.trackedTasks hin x ((hmem x).mp hx)
        fetched := hs.fetched
        okCalls := hs.okCalls
        badCalls := hs.badCalls
        sendingCalls := hs.sendingCalls
        auxCalls := hs.auxCalls
        collecting := fun hc => by simp [hp] at hc
        closedQuiet := fun _ hcl => by
          have := (hs.closedQuiet hin hcl).1
          simp [hp] at this
        done := fun hi => absurd hi (not_idle_of_inCycle hin) }
  | endRange =>
    obtain ⟨hp, hpend, rfl⟩ := step_endRange h
    have hin : s.inCycle := Or.inl hp
    exact
      { ticks := hs.ticks
        flags := fun _ => hs.flags hin
        nodup := fun _ => hs.nodup hin
        fresh := fun _ => hs.fresh hin
        callsNodup := hs.callsNodup
        cover := fun _ => hs.cover hin
        trackedCalls := hs.trackedCalls
        trackedTasks := fun _ => hs.trackedTasks hin
        fetched := hs.fetched
        okCalls := fun _ => hs.okCalls hin
        badCalls := fun _ => hs.badCalls hin
        sendingCalls := fun _ => hs.sendingCalls hin
        auxCalls := fun _ => hs.auxCalls hin
        collecting := fun _ => hpend
        closedQuiet := fun _ hcl => by
          have := (hs.closedQuiet hin hcl).1
          simp [hp] at this
        done := fun hi => by simp [State.idle] at hi }
  | fetch k =>
    obtain ⟨hin, hk, hcase⟩ := step_fetch h
    have hkmem : k ∈ s.pending ++ s.running := List.mem_append_right _ hk
    have hnew : ∀ c ∈ s.calls, c.key ≠ k := hs.fresh hin k hkmem
    have hsub : (s.pending ++ s.running.erase k).Sublist (s.pending ++ s.running) :=
      List.Sublist.append (List.Sublist.refl _) (List.erase_sublist k s.running)
    have hnd := hs.nodup hin
    have hgone : k ∉ s.pending ++ s.running.erase k := by
      intro hx
      rcases List.mem_append.mp hx with h1 | h1
      · exact (List.nodup_append.mp hnd).2.2 h1 hk
      · exact ((List.nodup_append.mp hnd).2.1.mem_erase_iff.mp h1).1 rfl
    have hopen : s.closed = false := by
      cases hc : s.closed with
      | false => rfl
      | true =>
        have := (hs.closedQuiet hin hc).2.1
        simp [this] at hk
    have hnokey : k ∉ s.auxMap.keys := by
      intro hx
      obtain ⟨c, hc, hck⟩ := hs.auxCalls hin k hx
      exact hnew c hc hck
    have hcover : ∀ (c0 : Call), c0.key = k → ∀ x ∈ mapKeys f.values,
        x ∈ s.pending ++ s.running.erase k ∨ ∃ c ∈ c0 :: s.calls, c.key = x := by
      intro c0 hc0 x hx
      rcases hs.cover hin x hx with h1 | ⟨c, hc, hcx⟩
      · by_cases hxk : x = k
        · exact Or.inr ⟨c0, List.mem_cons_self _ _, hxk ▸ hc0⟩
        · rcases List.mem_append.mp h1 with h2 | h2
          · exact Or.inl (List.mem_append_left _ h2)
          · exact Or.inl (List.mem_append_right _ ((List.mem_erase_of_ne hxk).mpr h2))
      · exact Or.inr ⟨c, List.mem_cons_of_mem _ hc, hcx⟩
    rcases hcase with ⟨_, rfl⟩ | ⟨fetchFn, hfn, ⟨e, he, rfl⟩ | ⟨he, rfl⟩⟩
    · exact cyc_crashed hs
    · have hfail : Call.failed
          { key := k, ctxDone := s.gCtxDone, outerDone := s.ctxDone,
            ret := fetchFn s.ticks s.gCtxDone k } = true := by
        simp [Call.failed, he]
      exact
        { ticks := hs.ticks
          flags := hs.flags
          nodup := fun _ => hnd.sublist hsub
          fresh := fun _ x hx c hc => by
            rcases List.mem_cons.mp hc with rfl | hc
            · intro hxk
              have hxk2 : k = x := hxk
              exact hgone (hxk2 ▸ hx)
            · exact hs.fresh hin x (hsub.subset hx) c hc
          callsNodup := by
            simp only [afterFailure, List.map_cons, List.nodup_cons]
            refine ⟨?_, hs.callsNodup⟩
            intro hx
            obtain ⟨c, hc, hck⟩ := List.mem_map.mp hx
            exact hnew c hc hck
          cover := fun _ => hcover _ rfl
          trackedCalls := fun c hc => by
            rcases List.mem_cons.mp hc with rfl | hc
            · exact hs.trackedTasks hin k hkmem
            · exact hs.trackedCalls c hc
          trackedTasks := fun _ x hx => hs.trackedTasks hin x (hsub.subset hx)
          fetched := fun c hc => by
            rcases List.mem_cons.mp hc with rfl | hc
            · exact ⟨fetchFn, hfn, by rw [← hs.ticks]⟩
            · exact hs.fetched c hc
          okCalls := fun _ c hc hok => by
            rcases List.mem_cons.mp hc with rfl | hc
            · rw [hfail] at hok
              cases hok
            · exact hs.okCalls hin c hc hok
          badCalls := fun _ c hc hbad => by
            rcases List.mem_cons.mp hc with rfl | hc
            · exact AList.lookup_eq_none.mpr (fun hx => hnokey (AList.mem_keys.mp hx))
            · exact hs.badCalls hin c hc hbad
          sendingCalls := fun _ x v hxv => by
            obtain ⟨c, hc, hrest⟩ := hs.sendingCalls hin x v hxv
            exact ⟨c, List.mem_cons_of_mem _ hc, hrest⟩
          auxCalls := fun _ x hx => by
            obtain ⟨c, hc, hrest⟩ := hs.auxCalls hin x hx
            exact ⟨c, List.mem_cons_of_mem _ hc, hrest⟩
          collecting := hs.collecting
          closedQuiet := fun _ hcl => by
            simp only [afterFailure] at hcl
            rw [hopen] at hcl
            cases hcl
          done := fun hi => absurd hi (not_idle_of_inCycle hin) }
    · have hfail : Call.failed
          { key := k, ctxDone := s.gCtxDone, outerDone := s.ctxDone,
            ret := fetchFn s.ticks s.gCtxDone k } = false := by
        simp [Call.failed, he]
      exact
        { ticks := hs.ticks
          flags := hs.flags
          nodup := fun _ => hnd.sublist hsub
          fresh := fun _ x hx c hc => by
            rcases List.mem_cons.mp hc with rfl | hc
            · intro hxk
              have hxk2 : k = x := hxk
              exact hgone (hxk2 ▸ hx)
            · exact hs.fresh hin x (hsub.subset hx) c hc
          callsNodup := by
            simp only [afterSuccess, List.map_cons, List.nodup_cons]
            refine ⟨?_, hs.callsNodup⟩
            intro hx
            obtain ⟨c, hc, hck⟩ := List.mem_map.mp hx
            exact hnew c hc hck
          cover := fun _ => hcover _ rfl
          trackedCalls := fun c hc => by
            rcases List.mem_cons.mp hc with rfl | hc
            · exact hs.trackedTasks hin k hkmem
            · exact hs.trackedCalls c hc
          trackedTasks := fun _ x hx => hs.trackedTasks hin x (hsub.subset hx)
          fetched := fun c hc => by
            rcases List.mem_cons.mp hc with rfl | hc
            · exact ⟨fetchFn, hfn, by rw [← hs.ticks]⟩
            · exact hs.fetched c hc
          okCalls := fun _ c hc hok => by
            rcases List.mem_cons.mp hc with rfl | hc
            · exact Or.inl (List.mem_cons_self _ _)
            · rcases hs.okCalls hin c hc hok with h1 | h1
              · exact Or.inl (List.mem_cons_of_mem _ h1)
              · exact Or.inr h1
          badCalls := fun _ c hc hbad => by
            rcases List.mem_cons.mp hc with rfl | hc
            · rw [hfail] at hbad
              cases hbad
            · exact hs.badCalls hin c hc hbad
          sendingCalls := fun _ x v hxv => by
            rcases List.mem_cons.mp hxv with hhead | htail
            · cases hhead
              exact ⟨_, List.mem_cons_self _ _, rfl, hfail, rfl⟩
            · obtain ⟨c, hc, hrest⟩ := hs.sendingCalls hin x v htail
              exact ⟨c, List.mem_cons_of_mem _ hc, hrest⟩
          auxCalls := fun _ x hx => by
            obtain ⟨c, hc, hrest⟩ := hs.auxCalls hin x hx
            exact ⟨c, List.mem_cons_of_mem _ hc, hrest⟩
          collecting := hs.collecting
          closedQuiet := fun _ hcl => by
            simp only [afterSuccess] at hcl
            rw [hopen] at hcl
            cases hcl
          done := fun hi => absurd hi (not_idle_of_inCycle hin) }
  | recv k v =>
    obtain ⟨hp, hkv, rfl⟩ := step_recv h
    have hin : s.inCycle := Or.inr hp
    obtain ⟨c0, hc0, hc0k, hc0ok, hc0v⟩ := hs.sendingCalls hin k v hkv
    exact
      { ticks := hs.ticks
        flags := hs.flags
        nodup := hs.nodup
        fresh := hs.fresh
        callsNodup := hs.callsNodup
        cover := hs.cover
        trackedCalls := hs.trackedCalls
        trackedTasks := hs.trackedTasks
        fetched := hs.fetched
        okCalls := fun _ c hc hok => by
          by_cases hck : c.key = k
          · have hcc : c = c0 := call_unique hs.callsNodup hc hc0 (hck.trans hc0k.symm)
            refine Or.inr ?_
            show AList.lookup c.key (s.auxMap.insert k v) = some c.ret.isEnabled
            rw [hck, AList.lookup_insert, hcc, hc0v]
          · rcases hs.okCalls hin c hc hok with h1 | h1
            · refine Or.inl ((List.mem_erase_of_ne ?_).mpr h1)
              intro heq
              exact hck (congrArg Prod.fst heq)
            · refine Or.inr ?_
              show AList.lookup c.key (s.auxMap.insert k v) = some c.ret.isEnabled
              rw [AList.lookup_insert_ne hck]
              exact h1
        badCalls := fun _ c hc hbad => by
          have hck : c.key ≠ k := by
            intro hck
            have hcc : c = c0 := call_unique hs.callsNodup hc hc0 (hck.trans hc0k.symm)
            rw [hcc, hc0ok] at hbad
            cases hbad
          show AList.lookup c.key (s.auxMap.insert k v) = none
          rw [AList.lookup_insert_ne hck]
          exact hs.badCalls hin c hc hbad
        sendingCalls := fun _ x w hxw => hs.sendingCalls hin x w (List.mem_of_mem_erase hxw)
        auxCalls := fun _ x hx => by
          have hx2 : x ∈ s.auxMap.insert k v := AList.mem_keys.mpr hx
          rcases (AList.mem_insert s.auxMap).mp hx2 with rfl | hx3
          · exact ⟨c0, hc0, hc0k⟩
          · exact hs.auxCalls hin x (AList.mem_keys.mp hx3)
        collecting := hs.collecting
        closedQuiet := fun _ hcl => by
          have := (hs.closedQuiet hin hcl).2.2
          simp [this] at hkv
        done := fun hi => absurd hi (not_idle_of_inCycle hin) }
  | wait =>
    obtain ⟨hp, _, hrun, hsend, rfl⟩ := step_wait h
    have hin : s.inCycle := Or.inr hp
    exact
      { ticks := hs.ticks
        flags := hs.flags
        nodup := hs.nodup
        fresh := hs.fresh
        callsNodup := hs.callsNodup
        cover := hs.cover
        trackedCalls := hs.trackedCalls
        trackedTasks := hs.trackedTasks
        fetched := hs.fetched
        okCalls := hs.okCalls
        badCalls := hs.badCalls
        sendingCalls := hs.sendingCalls
        auxCalls := hs.auxCalls
        collecting := hs.collecting
        closedQuiet := fun _ _ => ⟨hp, hrun, hsend⟩
        done := fun hi => absurd hi (not_idle_of_inCycle hin) }
  | merge =>
    obtain ⟨hp, hcl, hcase⟩ := step_merge h
    have hin : s.inCycle := Or.inr hp
    rcases hcase with ⟨_, rfl⟩ | ⟨f2, hf2, ⟨e, _, rfl⟩ | ⟨g, hg, rfl⟩⟩
    · exact cyc_crashed hs
    · exact cyc_crashed hs
    · rw [hs.flags hin] at hf2
      cases hf2
      obtain ⟨g2, hg2, hkeys, hframe⟩ := merge_ok hs hin hcl
      rw [hg] at hg2
      cases hg2
      exact
        { ticks := hs.ticks
          flags := fun h => by simp [State.inCycle] at h
          nodup := fun h => by simp [State.inCycle] at h
          fresh := fun h => by simp [State.inCycle] at h
          callsNodup := hs.callsNodup
          cover := fun h => by simp [State.inCycle] at h
          trackedCalls := hs.trackedCalls
          trackedTasks := fun h => by simp [State.inCycle] at h
          fetched := hs.fetched
          okCalls := fun h => by simp [State.inCycle] at h
          badCalls := fun h => by simp [State.inCycle] at h
          sendingCalls := fun h => by simp [State.inCycle] at h
          auxCalls := fun h => by simp [State.inCycle] at h
          collecting := fun h => by simp at h
          closedQuiet := fun h => by simp [State.inCycle] at h
          done := fun _ => ⟨g, rfl, hkeys, hframe⟩ }
  | cancel =>
    obtain rfl := step_cancel h
    exact
      { ticks := hs.ticks
        flags := hs.flags
        nodup := hs.nodup
        fresh := hs.fresh
        callsNodup := hs.callsNodup
        cover := hs.cover
        trackedCalls := hs.trackedCalls
        trackedTasks := hs.trackedTasks
        fetched := hs.fetched
        okCalls := hs.okCalls
        badCalls := hs.badCalls
        sendingCalls := hs.sendingCalls
        auxCalls := hs.auxCalls
        collecting := hs.collecting
        closedQuiet := hs.closedQuiet
        done := hs.done }
  | ret =>
    obtain ⟨hp, _, rfl⟩ := step_ret h
    exact
      { ticks := hs.ticks
        flags := fun h => by simp [State.inCycle] at h
        nodup := fun h => by simp [State.inCycle] at h
        fresh := fun h => by simp [State.inCycle] at h
        callsNodup := hs.callsNodup
        cover := fun h => by simp [State.inCycle] at h
        trackedCalls := hs.trackedCalls
        trackedTasks := fun h => by simp [State.inCycle] at h
        fetched := hs.fetched
        okCalls := fun h => by simp [State.inCycle] at h
        badCalls := fun h => by simp [State.inCycle] at h
        sendingCalls := fun h => by simp [State.inCycle] at h
        auxCalls := fun h => by simp [State.inCycle] at h
        collecting := fun h => by simp at h
        closedQuiet := fun h => by simp [State.inCycle] at h
        done := fun _ => hs.done (Or.inl hp) }


/-- A property kept by the moves of a kind is kept by every run of moves of that kind. -/
theorem run_keeps_of {r : Refresher} (P : State → Prop) (A : Action → Prop)
    (hstep : ∀ a s t, A a → P s → step r a s = some t → P t) :
    ∀ acts s t, (∀ a ∈ acts, A a) → P s → run r acts s = some t → P t := by
  intro acts
  induction acts with
  | nil =>
    intro s t _ hs h
    simp only [run] at h
    cases h
    exact hs
  | cons a rest ih =>
    intro s t hall hs h
    simp only [run] at h
    split at h
    · cases h
    · rename_i u hu
      exact ih u t (fun b hb => hall b (List.mem_cons_of_mem _ hb))
        (hstep a s u (hall a (List.mem_cons_self _ _)) hs hu) h

/-- Inside a cycle, with no limit on the tasks and a fetch function, some move other than the
tick is possible: the merge, which ends the cycle, or a move that leaves less work. -/
theorem progress_step {r : Refresher} {f : Flags} {n : Nat} {s : State}
    (hlimit : r.fetchMaxConcurrency < 0) (hfn : r.fetchFn.isSome = true)
    (hs : Cyc r f n s) (hin : s.inCycle) :
    (∃ t, step r .merge s = some t ∧ t.phase = .waiting) ∨
      ∃ a t, a ≠ .tick ∧ step r a s = some t ∧ t.inCycle ∧ t.work < s.work := by
  rcases hin with hp | hp
  · cases hpend : s.pending with
    | nil =>
      refine Or.inr ⟨.endRange, { s with phase := .collecting }, by simp, ?_, Or.inr rfl, ?_⟩
      · simp [step, hp, hpend]
      · simp [State.work, hp]
    | cons k rest =>
      refine Or.inr ⟨.go k, { s with pending := s.pending.erase k, running := k :: s.running },
        by simp, ?_, Or.inl hp, ?_⟩
      · simp [step, hp, hpend, hlimit]
      · simp [State.work, hp, hpend]
        omega
  · cases hcl : s.closed with
    | true =>
      obtain ⟨g, hg, _⟩ := merge_ok hs (Or.inr hp) hcl
      refine Or.inl ⟨{ s with
        phase := .waiting
        flags := some g
        failedAttempts := 0
        failedAttemptsDuration := 0 }, ?_, rfl⟩
      simp only [step, hp, hcl, hs.flags (Or.inr hp), hg, and_self, if_true]
    | false =>
      cases hrun : s.running with
      | cons k rest =>
        obtain ⟨fetchFn, hfetch⟩ := Option.isSome_iff_exists.mp hfn
        cases he : (fetchFn s.ticks s.gCtxDone k).err with
        | some e =>
          refine Or.inr ⟨.fetch k, afterFailure s k e (fetchFn s.ticks s.gCtxDone k), by simp,
            ?_, Or.inr hp, ?_⟩
          · simp [step, hp, hrun, hfetch, he, afterFailure]
          · simp [State.work, afterFailure, hp, hrun, hcl]
        | none =>
          refine Or.inr ⟨.fetch k, afterSuccess s k (fetchFn s.ticks s.gCtxDone k), by simp,
            ?_, Or.inr hp, ?_⟩
          · simp [step, hp, hrun, hfetch, he, afterSuccess]
          · simp [State.work, afterSuccess, hp, hrun, hcl]
            omega
      | nil =>
        cases hsend : s.sending with
        | cons kv rest =>
          obtain ⟨k, v⟩ := kv
          refine Or.inr ⟨.recv k v,
            { s with sending := s.sending.erase (k, v), auxMap := s.auxMap.insert k v }, by simp,
            ?_, Or.inr hp, ?_⟩
          · simp [step, hp, hsend]
          · simp [State.work, hp, hsend, hcl]
        | nil =>
          refine Or.inr ⟨.wait,
            { s with
              gCtxDone := true
              closed := true
              hookCalls :=
                if s.gErr.isSome && hookFires r s.failedAttempts s.failedAttemptsDuration
                then s.hookCalls + 1 else s.hookCalls }, by simp, ?_, Or.inr hp, ?_⟩
          · simp only [step, hp, hcl, hrun, hsend, and_self, if_true]
          · simp [State.work, hp, hcl]

/-- With no limit on the tasks and a fetch function, every cycle under way can be brought to
its end: no state of it is a deadlock. -/
theorem cycle_completes {r : Refresher} {f : Flags} {n : Nat}
    (hlimit : r.fetchMaxConcurrency < 0) (hfn : r.fetchFn.isSome = true) :
    ∀ (m : Nat) (s : State), s.work ≤ m → Cyc r f n s → s.inCycle →
      ∃ acts t, (∀ a ∈ acts, a ≠ Action.tick) ∧ run r acts s = some t ∧ t.phase = .waiting := by
  intro m
  induction m with
  | zero =>
    intro s hw hs hin
    rcases progress_step hlimit hfn hs hin with ⟨t, ht, hpt⟩ | ⟨a, t, _, _, _, hlt⟩
    · exact ⟨[.merge], t, by simp, by simp [run, ht], hpt⟩
    · omega
  | succ m ih =>
    intro s hw hs hin
    rcases progress_step hlimit hfn hs hin with ⟨t, ht, hpt⟩ | ⟨a, t, ha, ht, hint, hlt⟩
    · exact ⟨[.merge], t, by simp, by simp [run, ht], hpt⟩
    · obtain ⟨acts, u, hacts, hrun, hu⟩ := ih t (by omega) (cyc_step a s t ha hs ht) hint
      refine ⟨a :: acts, u, ?_, ?_, hu⟩
      · intro b hb
        rcases List.mem_cons.mp hb with rfl | hb
        · exact ha
        · exact hacts b hb
      · simp [run, ht, hrun]


theorem run_cons {r : Refresher} {a : Action} {acts : List Action} {s u : State}
    (h : run r (a :: acts) s = some u) : ∃ t, step r a s = some t ∧ run r acts t = some u := by
  simp only [run] at h
  split at h
  · cases h
  · rename_i t ht
    exact ⟨t, ht, h⟩

/-- C1: take any state in which `RefreshCache` waits for the ticker, with any store `f`, and
any fetch function. A cycle is the tick and then moves other than the tick, up to the next
wait. With no limit on the tasks (what `NewRefresher` sets) the tick is possible and every
cycle under way, however far its goroutines have got, can be brought to its end. After every
such cycle, each key that was in the store when the cycle began has been fetched by exactly
one call; if that call returned no error the key reads as (the fetched value, true), and if
it returned an error the key reads exactly as before the cycle. -/
theorem refresh_cycle_store (r : Refresher) (fetch : FetchFn) (s0 : State) (f : Flags)
    (hfn : r.fetchFn = some fetch) (hp : s0.phase = .waiting) (hf : s0.flags = some f) :
    (r.fetchMaxConcurrency < 0 →
      (∃ t, step r .tick s0 = some t ∧ t.phase = .ranging) ∧
      ∀ acts s, Action.tick ∉ acts → run r (.tick :: acts) s0 = some s → s.inCycle →
        ∃ more s1, Action.tick ∉ more ∧ run r more s = some s1 ∧ s1.phase = .waiting) ∧
    ∀ acts s1, Action.tick ∉ acts → run r (.tick :: acts) s0 = some s1 → s1.phase = .waiting →
      ∃ g, s1.flags = some g ∧
        ∀ k ∈ mapKeys f.values, ∃ c ∈ s1.calls, c.key = k ∧
          (∀ c2 ∈ s1.calls, c2.key = k → c2 = c) ∧
          c.ret = fetch (s0.ticks + 1) c.ctxDone k ∧
          (c.ret.err = none → g.Read k = (c.ret.isEnabled, true)) ∧
          (c.ret.err ≠ none → g.Read k = f.Read k) := by
  have htick : ∃ t, step r .tick s0 = some t := by
    simp [step, hp, hf]
  obtain ⟨t, ht⟩ := htick
  obtain ⟨hcyc, hrang⟩ := cyc_tick hf ht
  have hreach : ∀ acts s, Action.tick ∉ acts → run r (.tick :: acts) s0 = some s →
      Cyc r f (s0.ticks + 1) s := by
    intro acts s hacts hrun
    obtain ⟨t2, ht2, hrest⟩ := run_cons hrun
    rw [ht] at ht2
    cases ht2
    exact run_keeps_of (Cyc r f (s0.ticks + 1)) (fun a => a ≠ Action.tick)
      (fun a s u ha hs hstep => cyc_step a s u ha hs hstep) acts t s
      (fun a ha heq => hacts (heq ▸ ha)) hcyc hrest
  constructor
  · intro hlimit
    refine ⟨⟨t, ht, hrang⟩, ?_⟩
    intro acts s hacts hrun hin
    obtain ⟨more, s1, hmore, hrun1, hs1⟩ :=
      cycle_completes hlimit (by simp [hfn]) s.work s (Nat.le_refl _)
        (hreach acts s hacts hrun) hin
    exact ⟨more, s1, fun hmem => hmore _ hmem rfl, hrun1, hs1⟩
  · intro acts s1 hacts hrun hs1
    have hend := hreach acts s1 hacts hrun
    obtain ⟨g, hg, hkeys, _⟩ := hend.done (Or.inl hs1)
    refine ⟨g, hg, ?_⟩
    intro k hk
    obtain ⟨c, hc, hck, hread⟩ := hkeys k hk
    obtain ⟨fetch2, hf2, hret⟩ := hend.fetched c hc
    rw [hfn] at hf2
    cases hf2
    refine ⟨c, hc, hck, ?_, by rw [← hck]; exact hret, ?_, ?_⟩
    · intro c2 hc2 hc2k
      exact call_unique hend.callsNodup hc2 hc (hc2k.trans hck.symm)
    · intro hnone
      rw [hread]
      simp [Call.failed, hnone]
    · intro hsome
      rw [hread]
      have : c.failed = true := by
        cases herr : c.ret.err with
        | none => exact absurd herr hsome
        | some e => simp [Call.failed, herr]
      simp [this]

/-- C1 on the example: a was false and b true; the fetch of a returns true and the fetch of b
an error; after the cycle a reads (true, true) and b reads as before, (true, true). -/
theorem refresh_cycle_store_witness :
    (∃ s1, run refresherAB cycleAB (entryState refresherAB false) = some s1 ∧
      s1.flags.map (fun g => (g.Read "a", g.Read "b")) = some ((true, true), (true, true))) ∧
    ((refresherAB.fetchMaxConcurrency < 0 →
      (∃ t, step refresherAB .tick (entryState refresherAB false) = some t ∧
        t.phase = .ranging) ∧
      ∀ acts s, Action.tick ∉ acts →
        run refresherAB (.tick :: acts) (entryState refresherAB false) = some s → s.inCycle →
        ∃ more s1, Action.tick ∉ more ∧ run refresherAB more s = some s1 ∧
          s1.phase = .waiting) ∧
    ∀ acts s1, Action.tick ∉ acts →
      run refresherAB (.tick :: acts) (entryState refresherAB false) = some s1 →
      s1.phase = .waiting →
      ∃ g, s1.flags = some g ∧
        ∀ k ∈ mapKeys storeAB.values, ∃ c ∈ s1.calls, c.key = k ∧
          (∀ c2 ∈ s1.calls, c2.key = k → c2 = c) ∧
          c.ret = fetchAB ((entryState refresherAB false).ticks + 1) c.ctxDone k ∧
          (c.ret.err = none → g.Read k = (c.ret.isEnabled, true)) ∧
          (c.ret.err ≠ none → g.Read k = storeAB.Read k)) :=
  ⟨⟨_, rfl, rfl⟩,
    refresh_cycle_store refresherAB fetchAB (entryState refresherAB false) storeAB rfl rfl rfl⟩

/-- The test of `refresher_test.go`: a store with key false and a fetch function that always
returns true; after one cycle key reads true. -/
theorem test_RefreshCache :
    ∃ r, NewRefresher (some { values := some ((∅ : FlagMap).insert "key" false) })
        (some (fun _ _ _ => { isEnabled := true, err := none, elapsed := 1 })) [] =
          .ok (some r, none) ∧
      ∃ s, exec r false 10000000
          [.tick, .go "key", .endRange, .fetch "key", .recv "key" true, .wait, .merge] = some s ∧
        s.flags.map (fun g => g.Read "key") = some (true, true) :=
  ⟨_, rfl, _, rfl, rfl⟩


/-! ## Update, IsEnabled, and the literals of the bootstrap -/

/-- Update on an allocated store is an upsert of one key. -/
theorem update_upsert_allocated (m : FlagMap) (key : String) (value : Bool) :
    ∃ g, Flags.Update { values := some m } key value = .ok g ∧
      g.Read key = (value, true) ∧
      ∀ other, other ≠ key → g.Read other = Flags.Read { values := some m } other :=
  ⟨{ values := some (m.insert key value) }, rfl, read_insert_self m key value,
    fun other h => read_insert_other m key other value h⟩

/-- C11, where the code departs: in the store built by `NewFlags(WithBootstrapMap(nil))`
Update panics on the write to the nil map, so the key does not read back. -/
theorem update_nil_map_panics :
    ∃ f, NewFlags [WithBootstrapMap none] = .ok f ∧
      f.Read "key1" = (false, false) ∧
      f.Update "key1" true = .error "assignment to entry in nil map" :=
  ⟨{ values := none }, rfl, rfl, rfl⟩

/-- C12: in every store, a key that reads as (v, true) makes IsEnabled return v, whatever the
fallback, and leave the store as it is. -/
theorem isEnabled_known (f : Flags) (key : String) (v fallback : Bool)
    (h : f.Read key = (v, true)) : f.IsEnabled key fallback = .ok (v, f) := by
  simp only [Flags.IsEnabled, h]

/-- C12 on the store of the example: a is cached as false; IsEnabled returns false with the
fallback true, and the store is unchanged. -/
theorem isEnabled_known_witness :
    storeAB.Read "a" = (false, true) ∧ storeAB.IsEnabled "a" true = .ok (false, storeAB) :=
  ⟨by decide, isEnabled_known storeAB "a" false true (by decide)⟩

theorem parseBool_true_iff (v : String) : ParseBool v = .ok true ↔ v ∈ trueLiterals := by
  unfold ParseBool trueLiterals
  simp only [List.mem_cons, List.mem_singleton, List.not_mem_nil, or_false]
  constructor
  · intro h
    split at h
    · assumption
    · split at h <;> cases h
  · intro h
    rw [if_pos h]

theorem trueLiterals_not_false (v : String) (h : v ∈ trueLiterals) : v ∉ falseLiterals := by
  unfold trueLiterals at h
  unfold falseLiterals
  simp only [List.mem_cons, List.mem_singleton, List.not_mem_nil, or_false] at h ⊢
  rcases h with h | h | h | h | h | h <;> subst h <;> decide

theorem parseBool_false_iff (v : String) : ParseBool v = .ok false ↔ v ∈ falseLiterals := by
  constructor
  · intro h
    unfold ParseBool at h
    unfold falseLiterals
    simp only [List.mem_cons, List.mem_singleton, List.not_mem_nil, or_false]
    split at h
    · cases h
    · split at h
      · assumption
      · cases h
  · intro h
    have hnot : v ∉ trueLiterals := fun ht => trueLiterals_not_false v ht h
    unfold trueLiterals at hnot
    unfold falseLiterals at h
    simp only [List.mem_cons, List.mem_singleton, List.not_mem_nil, or_false] at h hnot
    unfold ParseBool
    rw [if_neg hnot, if_pos h]


theorem bootstrap_single_pair (key v : String) :
    NewFlags [WithBootstrapPairs [key, v]] =
      match ParseBool v with
      | .error _ => .error (v ++ " is not a boolean")
      | .ok b => .ok { values := some ((∅ : FlagMap).insert key b) } := by
  rw [newFlags_single]
  simp only [WithBootstrapPairs, List.length_cons, List.length_nil, bootstrapLoop]
  cases ParseBool v <;> rfl

/-- C13 as stated fails: the token tRuE equals true when letter case is ignored, and
`NewFlags(WithBootstrapPairs("key", "tRuE"))` panics. -/
theorem bootstrap_literals_not_case_insensitive :
    ¬ ∀ (key v lit : String), lit ∈ ["true", "false", "t", "f", "1", "0"] →
      lowerCase v = lit → ∃ f, NewFlags [WithBootstrapPairs [key, v]] = .ok f := by
  intro hclaim
  obtain ⟨f, hf⟩ := hclaim "key" "tRuE" "true" (by decide) (by decide)
  have hrun : NewFlags [WithBootstrapPairs ["key", "tRuE"]] = .error "tRuE is not a boolean" := by
    decide
  rw [hrun] at hf
  cases hf

/-- C13, amended: the grammar is that of `strconv.ParseBool`, with the letter case as listed.
A value token among 1, t, T, TRUE, true, True is accepted and stored as true; one among
0, f, F, FALSE, false, False is accepted and stored as false; any other token makes the
construction panic. -/
theorem bootstrap_literals (key v : String) :
    (v ∈ trueLiterals →
      ∃ f, NewFlags [WithBootstrapPairs [key, v]] = .ok f ∧ f.Read key = (true, true)) ∧
    (v ∈ falseLiterals →
      ∃ f, NewFlags [WithBootstrapPairs [key, v]] = .ok f ∧ f.Read key = (false, true)) ∧
    (v ∉ trueLiterals → v ∉ falseLiterals →
      ∃ msg, NewFlags [WithBootstrapPairs [key, v]] = .error msg) := by
  rw [bootstrap_single_pair]
  refine ⟨?_, ?_, ?_⟩
  · intro h
    rw [(parseBool_true_iff v).mpr h]
    exact ⟨_, rfl, read_insert_self ∅ key true⟩
  · intro h
    rw [(parseBool_false_iff v).mpr h]
    exact ⟨_, rfl, read_insert_self ∅ key false⟩
  · intro ht hf
    cases hp : ParseBool v with
    | error e => exact ⟨_, rfl⟩
    | ok b =>
      cases b with
      | true => exact absurd ((parseBool_true_iff v).mp hp) ht
      | false => exact absurd ((parseBool_false_iff v).mp hp) hf

/-- C13 amended, on three tokens: TRUE is stored as true, F as false, tRuE is rejected. -/
theorem bootstrap_literals_witness :
    (∃ f, NewFlags [WithBootstrapPairs ["key", "TRUE"]] = .ok f ∧ f.Read "key" = (true, true)) ∧
    (∃ f, NewFlags [WithBootstrapPairs ["key", "F"]] = .ok f ∧ f.Read "key" = (false, true)) ∧
    (∃ msg, NewFlags [WithBootstrapPairs ["key", "tRuE"]] = .error msg) :=
  ⟨(bootstrap_literals "key" "TRUE").1 (by decide),
   (bootstrap_literals "key" "F").2.1 (by decide),
   (bootstrap_literals "key" "tRuE").2.2 (by decide) (by decide)⟩

theorem newFlags_append_map (m : Option FlagMap) (earlier : List FlagsOption) :
    NewFlags (earlier ++ [WithBootstrapMap m]) =
      match NewFlags earlier with
      | .error e => .error e
      | .ok _ => .ok { values := m } := by
  unfold NewFlags
  rw [List.foldlM_append]
  cases h : List.foldlM (fun f o => o f) ({ values := some ∅ } : Flags) earlier with
  | error e => rfl
  | ok f0 => rfl

/-- C17: whatever options come before it, `WithBootstrapMap(m)` as the last option makes
NewFlags return the store whose map is `m` itself, whenever the earlier options did not panic
(and only then is a store returned). So a key reads as (v, true) exactly when `m` holds it
with value v, and as not found exactly when `m` does not hold it. -/
theorem withBootstrapMap_replaces (m : Option FlagMap) (earlier : List FlagsOption) :
    ((∃ f0, NewFlags earlier = .ok f0) →
      NewFlags (earlier ++ [WithBootstrapMap m]) = .ok { values := m }) ∧
    (∀ f, NewFlags (earlier ++ [WithBootstrapMap m]) = .ok f →
      f = { values := m } ∧
      (∀ key v, f.Read key = (v, true) ↔
        ∃ entries, m = some entries ∧ entries.lookup key = some v) ∧
      (∀ key, f.Read key = (false, false) ↔ key ∉ mapKeys m)) := by
  rw [newFlags_append_map]
  constructor
  · rintro ⟨f0, hf0⟩
    rw [hf0]
  · intro f hf
    have hfm : f = { values := m } := by
      cases h : NewFlags earlier with
      | error e =>
        rw [h] at hf
        cases hf
      | ok f0 =>
        rw [h] at hf
        cases hf
        rfl
    subst hfm
    refine ⟨rfl, ?_, ?_⟩
    · intro key v
      cases m with
      | none => simp [Flags.Read, mapIndex]
      | some entries =>
        cases hl : entries.lookup key with
        | none => simp [Flags.Read, mapIndex, hl]
        | some w => simp [Flags.Read, mapIndex, hl]
    · intro key
      cases m with
      | none => simp [Flags.Read, mapIndex, mapKeys]
      | some entries =>
        cases hl : entries.lookup key with
        | none =>
          have : key ∉ entries.keys := fun hk =>
            (AList.lookup_eq_none.mp hl) (AList.mem_keys.mpr hk)
          simp [Flags.Read, mapIndex, mapKeys, hl, this]
        | some w =>
          have hmem : key ∈ entries.keys := by
            have : (entries.lookup key).isSome = true := by simp [hl]
            exact AList.mem_keys.mp (AList.lookup_isSome.mp this)
          simp [Flags.Read, mapIndex, mapKeys, hl, hmem]

/-- C17 on an example: after pairs seeding a and a mapping seeding x, the mapping with b alone
leaves b as (true, true) and neither a nor x. -/
theorem withBootstrapMap_replaces_witness :
    NewFlags ([WithBootstrapPairs ["a", "true"],
        WithBootstrapMap (some ((∅ : FlagMap).insert "x" false))] ++
          [WithBootstrapMap (some ((∅ : FlagMap).insert "b" true))]) =
        .ok { values := some ((∅ : FlagMap).insert "b" true) } ∧
      Flags.Read { values := some ((∅ : FlagMap).insert "b" true) } "b" = (true, true) ∧
      Flags.Read { values := some ((∅ : FlagMap).insert "b" true) } "a" = (false, false) ∧
      Flags.Read { values := some ((∅ : FlagMap).insert "b" true) } "x" = (false, false) :=
  ⟨(withBootstrapMap_replaces (some ((∅ : FlagMap).insert "b" true))
      [WithBootstrapPairs ["a", "true"],
        WithBootstrapMap (some ((∅ : FlagMap).insert "x" false))]).1 ⟨_, rfl⟩,
    by decide, by decide, by decide⟩


/-! ## The tracked keys -/

/-- The state a cycle has reached, begun by the tick in `s0` on the store `f`. -/
theorem cyc_reach {r : Refresher} {s0 s : State} {f : Flags} {acts : List Action}
    (hf : s0.flags = some f) (hacts : Action.tick ∉ acts)
    (hrun : run r (.tick :: acts) s0 = some s) : Cyc r f (s0.ticks + 1) s := by
  obtain ⟨t, ht, hrest⟩ := run_cons hrun
  exact run_keeps_of (Cyc r f (s0.ticks + 1)) (fun a => a ≠ Action.tick)
    (fun a s u ha hs hstep => cyc_step a s u ha hs hstep) acts t s
    (fun a ha heq => hacts (heq ▸ ha)) (cyc_tick hf ht).1 hrest

theorem mapKeys_nodup (m : Option FlagMap) : (mapKeys m).Nodup := by
  cases m with
  | none => simp [mapKeys]
  | some entries => exact entries.keys_nodup

theorem mem_mapKeys_iff_found (f : Flags) (key : String) :
    key ∈ mapKeys f.values ↔ (f.Read key).2 = true := by
  obtain ⟨values⟩ := f
  cases values with
  | none => simp [mapKeys, Flags.Read, mapIndex]
  | some entries =>
    cases hl : entries.lookup key with
    | none =>
      have : key ∉ entries.keys := fun hk =>
        (AList.lookup_eq_none.mp hl) (AList.mem_keys.mpr hk)
      simp [Flags.Read, mapIndex, mapKeys, hl, this]
    | some w =>
      have hmem : key ∈ entries.keys := by
        have : (entries.lookup key).isSome = true := by simp [hl]
        exact AList.mem_keys.mp (AList.lookup_isSome.mp this)
      simp [Flags.Read, mapIndex, mapKeys, hl, hmem]

/-- C15: in every state of a cycle, begun by the tick on the store `f`, no key has been fetched
twice and every key fetched was in the store when the cycle began; when the cycle is over,
the keys fetched are exactly the keys of that store, each once. -/
theorem fetch_once_per_key (r : Refresher) (s0 s : State) (f : Flags) (acts : List Action)
    (hf : s0.flags = some f) (hacts : Action.tick ∉ acts)
    (hrun : run r (.tick :: acts) s0 = some s) :
    (s.calls.map Call.key).Nodup ∧
      (∀ c ∈ s.calls, c.key ∈ mapKeys f.values) ∧
      (s.phase = .waiting → (s.calls.map Call.key).Perm (mapKeys f.values)) := by
  have hcyc := cyc_reach hf hacts hrun
  refine ⟨hcyc.callsNodup, hcyc.trackedCalls, ?_⟩
  intro hp
  obtain ⟨g, _, hkeys, _⟩ := hcyc.done (Or.inl hp)
  rw [List.perm_ext_iff_of_nodup hcyc.callsNodup (mapKeys_nodup f.values)]
  intro k
  constructor
  · intro hk
    obtain ⟨c, hc, hck⟩ := List.mem_map.mp hk
    exact hck ▸ hcyc.trackedCalls c hc
  · intro hk
    obtain ⟨c, hc, hck, _⟩ := hkeys k hk
    exact List.mem_map.mpr ⟨c, hc, hck⟩

/-- C15 on the example: the cycle fetches b and a, once each, although b failed. -/
theorem fetch_once_per_key_witness :
    ∃ s, run refresherAB cycleAB (entryState refresherAB false) = some s ∧
      s.calls.map Call.key = ["a", "b"] ∧
      ((s.calls.map Call.key).Nodup ∧
        (∀ c ∈ s.calls, c.key ∈ mapKeys storeAB.values) ∧
        (s.phase = .waiting → (s.calls.map Call.key).Perm (mapKeys storeAB.values))) :=
  ⟨_, rfl, rfl,
    fetch_once_per_key refresherAB (entryState refresherAB false) _ storeAB cycleAB.tail
      rfl (by decide) rfl⟩


theorem found_allocated {f : Flags} {x : String} (h : (f.Read x).2 = true) :
    ∃ m v, f = { values := some m } ∧ m.lookup x = some v := by
  obtain ⟨values⟩ := f
  cases values with
  | none => simp [Flags.Read, mapIndex] at h
  | some m =>
    cases hl : m.lookup x with
    | none => simp [Flags.Read, mapIndex, hl] at h
    | some v => exact ⟨m, v, rfl, hl⟩

theorem found_of_lookup {m : FlagMap} {x : String} {v : Bool} (h : m.lookup x = some v) :
    (Flags.Read { values := some m } x).2 = true := by
  simp [Flags.Read, mapIndex, h]

theorem update_keeps_found (f : Flags) (x : String) (h : (f.Read x).2 = true)
    (key : String) (value : Bool) :
    ∃ g, f.Update key value = .ok g ∧ (g.Read x).2 = true := by
  obtain ⟨m, v, rfl, hv⟩ := found_allocated h
  refine ⟨{ values := some (m.insert key value) }, rfl, ?_⟩
  by_cases hx : x = key
  · subst hx
    exact found_of_lookup (AList.lookup_insert m)
  · exact found_of_lookup ((AList.lookup_insert_ne hx).trans hv)

/-- C18: a key found in a store is still found after Update, BatchUpdate and IsEnabled, each of
which returns normally on such a store, whatever its arguments. A refresh cycle, begun by the
tick on the store `f`, leaves the store as it is while it runs, and when it is over every key
is found exactly if it was found in `f`: the keys are the same. -/
theorem keys_never_shrink :
    (∀ (f : Flags) (x : String), (f.Read x).2 = true →
      (∀ key value, ∃ g, f.Update key value = .ok g ∧ (g.Read x).2 = true) ∧
      (∀ newFlags, ∃ g, f.BatchUpdate newFlags = .ok g ∧ (g.Read x).2 = true) ∧
      (∀ key fallback, ∃ b g, f.IsEnabled key fallback = .ok (b, g) ∧ (g.Read x).2 = true)) ∧
    (∀ (r : Refresher) (s0 s : State) (f : Flags) (acts : List Action),
      s0.flags = some f → Action.tick ∉ acts → run r (.tick :: acts) s0 = some s →
      (s.inCycle → s.flags = some f) ∧
      (s.phase = .waiting →
        ∃ g, s.flags = some g ∧
          ∀ x, (g.Read x).2 = (f.Read x).2 ∧ (x ∈ mapKeys g.values ↔ x ∈ mapKeys f.values))) := by
  constructor
  · intro f x hx
    refine ⟨update_keeps_found f x hx, ?_, ?_⟩
    · intro newFlags
      obtain ⟨m, v, rfl, hv⟩ := found_allocated hx
      cases newFlags with
      | none => exact ⟨{ values := some m }, rfl, hx⟩
      | some nf =>
        obtain ⟨m2, hrun, hlook⟩ := batchUpdate_allocated m nf
        refine ⟨{ values := some m2 }, hrun, ?_⟩
        cases hn : nf.lookup x with
        | none =>
          have : m2.lookup x = some v := by rw [hlook x, hn, ← hv]; rfl
          exact found_of_lookup this
        | some w =>
          have : m2.lookup x = some w := by rw [hlook x, hn]; rfl
          exact found_of_lookup this
    · intro key fallback
      cases hr : f.Read key with
      | mk b found =>
        cases found with
        | true => exact ⟨b, f, by simp only [Flags.IsEnabled, hr], hx⟩
        | false =>
          obtain ⟨g, hg, hgx⟩ := update_keeps_found f x hx key fallback
          exact ⟨fallback, g, by simp only [Flags.IsEnabled, hr, hg], hgx⟩
  · intro r s0 s f acts hf hacts hrun
    have hcyc := cyc_reach hf hacts hrun
    refine ⟨hcyc.flags, ?_⟩
    intro hp
    obtain ⟨g, hg, hkeys, hframe⟩ := hcyc.done (Or.inl hp)
    refine ⟨g, hg, ?_⟩
    have hfound : ∀ x, (g.Read x).2 = (f.Read x).2 := by
      intro x
      by_cases hx : x ∈ mapKeys f.values
      · obtain ⟨c, _, _, hread⟩ := hkeys x hx
        have hfx := (mem_mapKeys_iff_found f x).mp hx
        rw [hread, hfx]
        split <;> simp [hfx]
      · rw [hframe x hx]
    intro x
    refine ⟨hfound x, ?_⟩
    rw [mem_mapKeys_iff_found, mem_mapKeys_iff_found, hfound x]

/-- C18 on the example: b, found before the cycle, is found after it although its fetch
failed, and c, not found before, is not found after. -/
theorem keys_never_shrink_witness :
    ∃ s g, run refresherAB cycleAB (entryState refresherAB false) = some s ∧
      s.flags = some g ∧ (g.Read "b").2 = true ∧ (g.Read "c").2 = false ∧
      ((s.inCycle → s.flags = some storeAB) ∧
        (s.phase = .waiting →
          ∃ g, s.flags = some g ∧
            ∀ x, (g.Read x).2 = (storeAB.Read x).2 ∧
              (x ∈ mapKeys g.values ↔ x ∈ mapKeys storeAB.values))) :=
  ⟨_, _, rfl, rfl, by decide, by decide,
    keys_never_shrink.2 refresherAB (entryState refresherAB false) _ storeAB cycleAB.tail
      rfl (by decide) rfl⟩


/-! ## The cycle over a store without keys -/

theorem emptyCyc_tick {r : Refresher} {s t : State} {f : Flags} (hf : s.flags = some f)
    (hempty : mapKeys f.values = []) (h : step r .tick s = some t) :
    EmptyCyc f t ∧ t.phase = .ranging := by
  obtain ⟨_, ⟨hnone, _⟩ | ⟨f2, hf2, rfl⟩⟩ := step_tick h
  · simp [hf] at hnone
  · rw [hf] at hf2
    cases hf2
    exact ⟨⟨hf, hempty, rfl, rfl, rfl, rfl, rfl, rfl, fun _ => rfl, by simp⟩, rfl⟩

theorem emptyCyc_step {r : Refresher} {f : Flags} (a : Action) (s t : State)
    (ha : a ≠ .tick) (hs : EmptyCyc f s) (h : step r a s = some t) : EmptyCyc f t := by
  cases a with
  | tick => exact absurd rfl ha
  | go k =>
    obtain ⟨_, hk, _, rfl⟩ := step_go h
    simp [hs.pending] at hk
  | endRange =>
    obtain ⟨_, _, rfl⟩ := step_endRange h
    exact ⟨hs.flags, hs.pending, hs.running, hs.sending, hs.auxMap, hs.gErr, hs.calls,
      hs.hookCalls, fun hp => by simp at hp, by simp⟩
  | fetch k =>
    obtain ⟨_, hk, _⟩ := step_fetch h
    simp [hs.running] at hk
  | recv k v =>
    obtain ⟨_, hkv, rfl⟩ := step_recv h
    simp [hs.sending] at hkv
  | wait =>
    obtain ⟨hp, _, _, _, rfl⟩ := step_wait h
    refine ⟨hs.flags, hs.pending, hs.running, hs.sending, hs.auxMap, hs.gErr, hs.calls,
      ?_, fun hr => by simp [hp] at hr, by simp [hp]⟩
    simp [hs.gErr, hs.hookCalls]
  | merge =>
    obtain ⟨_, _, hcase⟩ := step_merge h
    have hmerge : f.BatchUpdate (some s.auxMap) = .ok f := by
      rw [hs.auxMap]
      exact (batchUpdate_nothing f).2
    rcases hcase with ⟨hnone, _⟩ | ⟨f2, hf2, ⟨e, he, _⟩ | ⟨g, hg, rfl⟩⟩
    · simp [hs.flags] at hnone
    · rw [hs.flags] at hf2
      cases hf2
      rw [hmerge] at he
      cases he
    · rw [hs.flags] at hf2
      cases hf2
      rw [hmerge] at hg
      cases hg
      exact ⟨rfl, hs.pending, hs.running, hs.sending, hs.auxMap, hs.gErr, hs.calls,
        hs.hookCalls, fun hr => by simp at hr, by simp⟩
  | cancel =>
    obtain rfl := step_cancel h
    exact ⟨hs.flags, hs.pending, hs.running, hs.sending, hs.auxMap, hs.gErr, hs.calls,
      hs.hookCalls, hs.openRanging, hs.alive⟩
  | ret =>
    obtain ⟨_, _, rfl⟩ := step_ret h
    exact ⟨hs.flags, hs.pending, hs.running, hs.sending, hs.auxMap, hs.gErr, hs.calls,
      hs.hookCalls, fun hr => by simp at hr, by simp⟩

theorem run_step {r : Refresher} {a : Action} {rest : List Action} {s t : State}
    (h : step r a s = some t) : run r (a :: rest) s = run r rest t := by
  simp only [run, h]

theorem empty_merge {r : Refresher} {f : Flags} {s : State} (hs : EmptyCyc f s)
    (hph : s.phase = .collecting) (hcl : s.closed = true) :
    ∃ s1, step r .merge s = some s1 ∧ s1.phase = .waiting := by
  have hmerge : f.BatchUpdate (some s.auxMap) = .ok f := by
    rw [hs.auxMap]
    exact (batchUpdate_nothing f).2
  refine ⟨{ s with
    phase := .waiting
    flags := some f
    failedAttempts := 0
    failedAttemptsDuration := 0 }, ?_, rfl⟩
  simp only [step, hph, hcl, hs.flags, hmerge, and_self, if_true]

theorem empty_wait {r : Refresher} {f : Flags} {s : State} (hs : EmptyCyc f s)
    (hph : s.phase = .collecting) (hcl : s.closed = false) :
    ∃ t, step r .wait s = some t ∧ t.phase = .collecting ∧ t.closed = true := by
  refine ⟨{ s with
    gCtxDone := true
    closed := true
    hookCalls :=
      if s.gErr.isSome && hookFires r s.failedAttempts s.failedAttemptsDuration
      then s.hookCalls + 1 else s.hookCalls }, ?_, hph, rfl⟩
  simp only [step, hph, hcl, hs.running, hs.sending, and_self, if_true]

theorem empty_endRange {r : Refresher} {f : Flags} {s : State} (hs : EmptyCyc f s)
    (hph : s.phase = .ranging) :
    ∃ t, step r .endRange s = some t ∧ t.phase = .collecting ∧ t.closed = false := by
  refine ⟨{ s with phase := .collecting }, ?_, rfl, hs.openRanging hph⟩
  simp only [step, hph, hs.pending, and_self, if_true]

/-- C16: a cycle begun by the tick on a store `f` without keys, whatever the Refresher (its
thresholds, its limit, its fetch function): in every state of the cycle the fetch function
has not been called, the hook has not been called, and the store is `f`; the process does not
die; and the cycle can always be brought to its end by the moves left to it, which are the
end of the loop over the keys, the return of `g.Wait()` and the merge. -/
theorem empty_cycle (r : Refresher) (s0 : State) (f : Flags) (hp : s0.phase = .waiting)
    (hf : s0.flags = some f) (hempty : mapKeys f.values = []) :
    (∃ t, step r .tick s0 = some t ∧ t.phase = .ranging) ∧
    ∀ acts s, Action.tick ∉ acts → run r (.tick :: acts) s0 = some s →
      s.calls = [] ∧ s.hookCalls = 0 ∧ s.flags = some f ∧ s.phase ≠ .crashed ∧
      (s.inCycle →
        ∃ more s1, more.Sublist [Action.endRange, Action.wait, Action.merge] ∧
          run r more s = some s1 ∧ s1.phase = .waiting) := by
  have htick : ∃ t, step r .tick s0 = some t := by
    simp [step, hp, hf]
  obtain ⟨t, ht⟩ := htick
  obtain ⟨hstart, hrang⟩ := emptyCyc_tick hf hempty ht
  refine ⟨⟨t, ht, hrang⟩, ?_⟩
  intro acts s hacts hrun
  obtain ⟨t2, ht2, hrest⟩ := run_cons hrun
  rw [ht] at ht2
  cases ht2
  have hs : EmptyCyc f s :=
    run_keeps_of (EmptyCyc f) (fun a => a ≠ Action.tick)
      (fun a s u ha hs hstep => emptyCyc_step a s u ha hs hstep) acts t s
      (fun a ha heq => hacts (heq ▸ ha)) hstart hrest
  refine ⟨hs.calls, hs.hookCalls, hs.flags, hs.alive, ?_⟩
  rintro (hph | hph)
  · obtain ⟨t1, ht1, hp1, hc1⟩ := empty_endRange (r := r) hs hph
    have hs1 := emptyCyc_step .endRange s t1 (by simp) hs ht1
    obtain ⟨t2, ht2, hp2, hc2⟩ := empty_wait (r := r) hs1 hp1 hc1
    have hs2 := emptyCyc_step .wait t1 t2 (by simp) hs1 ht2
    obtain ⟨s1, hm, hw⟩ := empty_merge (r := r) hs2 hp2 hc2
    refine ⟨[.endRange, .wait, .merge], s1, List.Sublist.refl _, ?_, hw⟩
    rw [run_step ht1, run_step ht2, run_step hm]
    rfl
  · cases hcl : s.closed with
    | false =>
      obtain ⟨t2, ht2, hp2, hc2⟩ := empty_wait (r := r) hs hph hcl
      have hs2 := emptyCyc_step .wait s t2 (by simp) hs ht2
      obtain ⟨s1, hm, hw⟩ := empty_merge (r := r) hs2 hp2 hc2
      refine ⟨[.wait, .merge], s1, by decide, ?_, hw⟩
      rw [run_step ht2, run_step hm]
      rfl
    | true =>
      obtain ⟨s1, hm, hw⟩ := empty_merge (r := r) hs hph hcl
      refine ⟨[.merge], s1, by decide, ?_, hw⟩
      rw [run_step hm]
      rfl


/-- C16 on a store without keys, with a hook and both thresholds 0: the cycle ends, no fetch
and no hook call were made, the store is as before. -/
theorem empty_cycle_witness :
    (∃ s, run refresherEmpty [.tick, .endRange, .wait, .merge]
        (entryState refresherEmpty false) = some s ∧
      s.phase = .waiting ∧ s.calls = [] ∧ s.hookCalls = 0 ∧
      s.flags = some { values := some ∅ }) ∧
    ((∃ t, step refresherEmpty .tick (entryState refresherEmpty false) = some t ∧
        t.phase = .ranging) ∧
    ∀ acts s, Action.tick ∉ acts →
      run refresherEmpty (.tick :: acts) (entryState refresherEmpty false) = some s →
      s.calls = [] ∧ s.hookCalls = 0 ∧ s.flags = some { values := some ∅ } ∧
      s.phase ≠ .crashed ∧
      (s.inCycle →
        ∃ more s1, more.Sublist [Action.endRange, Action.wait, Action.merge] ∧
          run refresherEmpty more s = some s1 ∧ s1.phase = .waiting)) :=
  ⟨⟨_, rfl, rfl, rfl, rfl, rfl⟩,
    empty_cycle refresherEmpty (entryState refresherEmpty false) { values := some ∅ }
      rfl rfl rfl⟩

/-! ## The limit of tasks -/

theorem stuck_step {r : Refresher} (hzero : r.fetchMaxConcurrency = 0) (a : Action)
    (s t : State) (ha : a ≠ .tick) (hs : Stuck s) (h : step r a s = some t) : Stuck t := by
  cases a with
  | tick => exact absurd rfl ha
  | go k =>
    obtain ⟨_, _, hlimit, _⟩ := step_go h
    rw [hzero, hs.running, hs.sending] at hlimit
    simp at hlimit
  | endRange =>
    obtain ⟨_, hpend, _⟩ := step_endRange h
    exact absurd hpend hs.pending
  | fetch k =>
    obtain ⟨_, hk, _⟩ := step_fetch h
    simp [hs.running] at hk
  | recv k v =>
    obtain ⟨hp, _, _⟩ := step_recv h
    simp [hs.phase] at hp
  | wait =>
    obtain ⟨hp, _⟩ := step_wait h
    simp [hs.phase] at hp
  | merge =>
    obtain ⟨hp, _⟩ := step_merge h
    simp [hs.phase] at hp
  | cancel =>
    obtain rfl := step_cancel h
    exact ⟨hs.phase, hs.pending, hs.running, hs.sending, hs.calls⟩
  | ret =>
    obtain ⟨hp, _⟩ := step_ret h
    simp [hs.phase] at hp

/-- With the limit 0 and a key in the store, a cycle starts no task, calls the fetch function
never, and never ends: the loop stays blocked in `g.Go`. -/
theorem limit_zero_blocks {r : Refresher} {s0 s : State} {f : Flags} {acts : List Action}
    (hzero : r.fetchMaxConcurrency = 0) (hf : s0.flags = some f)
    (hkeys : mapKeys f.values ≠ []) (hacts : Action.tick ∉ acts)
    (hrun : run r (.tick :: acts) s0 = some s) : Stuck s := by
  obtain ⟨t, ht, hrest⟩ := run_cons hrun
  have hstart : Stuck t := by
    obtain ⟨_, ⟨hnone, _⟩ | ⟨f2, hf2, rfl⟩⟩ := step_tick ht
    · simp [hf] at hnone
    · rw [hf] at hf2
      cases hf2
      exact ⟨rfl, hkeys, rfl, rfl, rfl⟩
  exact run_keeps_of Stuck (fun a => a ≠ Action.tick)
    (fun a s u ha hs hstep => stuck_step hzero a s u ha hs hstep) acts t s
    (fun a ha heq => hacts (heq ▸ ha)) hstart hrest

/-- C14 as stated fails: with the limit 0, the store of the example and its fetch function, no
cycle ever ends, and none starts a task. -/
theorem limit_zero_not_unbounded :
    ¬ ∀ (r : Refresher) (fetch : FetchFn) (s0 : State) (f : Flags),
      r.fetchMaxConcurrency ≤ 0 → r.fetchFn = some fetch → s0.phase = .waiting →
      s0.flags = some f → mapKeys f.values ≠ [] →
      ∃ acts s1, Action.tick ∉ acts ∧ run r (.tick :: acts) s0 = some s1 ∧
        s1.phase = .waiting := by
  intro hclaim
  obtain ⟨acts, s1, hacts, hrun, hp⟩ :=
    hclaim refresherZero fetchAB (entryState refresherZero false) storeAB
      (by decide) rfl rfl rfl (by decide)
  have hstuck := limit_zero_blocks (r := refresherZero) rfl rfl (by decide) hacts hrun
  rw [hstuck.phase] at hp
  cases hp

/-- C14, amended to a negative limit (what `NewRefresher` sets is -1): `g.Go` never blocks, that
is, while the loop is over the keys the task of any key left can be started; and every cycle
under way, begun by the tick on the store `f`, can be brought to its end, where every key of
`f` has been fetched. -/
theorem negative_limit_unbounded (r : Refresher) (fetch : FetchFn) (s0 : State) (f : Flags)
    (hlimit : r.fetchMaxConcurrency < 0) (hfn : r.fetchFn = some fetch)
    (hp : s0.phase = .waiting) (hf : s0.flags = some f) :
    (∀ s k, s.phase = .ranging → k ∈ s.pending → ∃ t, step r (.go k) s = some t) ∧
    (∃ t, step r .tick s0 = some t ∧ t.phase = .ranging) ∧
    ∀ acts s, Action.tick ∉ acts → run r (.tick :: acts) s0 = some s → s.inCycle →
      ∃ more s1, Action.tick ∉ more ∧ run r more s = some s1 ∧ s1.phase = .waiting ∧
        ∀ k ∈ mapKeys f.values, ∃ c ∈ s1.calls, c.key = k := by
  refine ⟨?_, ?_, ?_⟩
  · intro s k hph hk
    exact ⟨{ s with pending := s.pending.erase k, running := k :: s.running },
      by simp [step, hph, hk, hlimit]⟩
  · have htick : ∃ t, step r .tick s0 = some t := by
      simp [step, hp, hf]
    obtain ⟨t, ht⟩ := htick
    exact ⟨t, ht, (cyc_tick hf ht).2⟩
  · intro acts s hacts hrun hin
    have hcyc := cyc_reach hf hacts hrun
    obtain ⟨more, s1, hmore, hrun1, hs1⟩ :=
      cycle_completes hlimit (by simp [hfn]) s.work s (Nat.le_refl _) hcyc hin
    have hend : Cyc r f (s0.ticks + 1) s1 :=
      run_keeps_of (Cyc r f (s0.ticks + 1)) (fun a => a ≠ Action.tick)
        (fun a s u ha hs hstep => cyc_step a s u ha hs hstep) more s s1 hmore hcyc hrun1
    obtain ⟨g, _, hkeys, _⟩ := hend.done (Or.inl hs1)
    refine ⟨more, s1, fun hmem => hmore _ hmem rfl, hrun1, hs1, ?_⟩
    intro k hk
    obtain ⟨c, hc, hck, _⟩ := hkeys k hk
    exact ⟨c, hc, hck⟩

/-- C14 amended, on the example, whose limit is -1. -/
theorem negative_limit_unbounded_witness :
    (∀ s k, s.phase = .ranging → k ∈ s.pending → ∃ t, step refresherAB (.go k) s = some t) ∧
    (∃ t, step refresherAB .tick (entryState refresherAB false) = some t ∧
      t.phase = .ranging) ∧
    ∀ acts s, Action.tick ∉ acts →
      run refresherAB (.tick :: acts) (entryState refresherAB false) = some s → s.inCycle →
      ∃ more s1, Action.tick ∉ more ∧ run refresherAB more s = some s1 ∧
        s1.phase = .waiting ∧
        ∀ k ∈ mapKeys storeAB.values, ∃ c ∈ s1.calls, c.key = k :=
  negative_limit_unbounded refresherAB fetchAB (entryState refresherAB false) storeAB
    (by decide) rfl rfl rfl


/-! ## The thresholds of the hook -/

/-- What `NewRefresher` leaves when only a hook is given: both maxima are 0 and the limit of
tasks is -1. -/
theorem newRefresher_defaults (f : Flags) (fetchFn : Option FetchFn) (fn : Option Hook) :
    ∃ r, NewRefresher (some f) fetchFn [WithFailedAttemptsHook fn] = .ok (some r, none) ∧
      r.failedAttemptsFn = fn ∧ r.failedAttemptsMaxCount = 0 ∧
      r.failedAttemptsMaxDuration = 0 ∧ r.fetchMaxConcurrency = -1 :=
  ⟨_, rfl, rfl, rfl, rfl, rfl⟩

/-- C19: take a state an execution of `RefreshCache` reaches once `g.Wait()` has returned, with
a hook set and at least one failed fetch in the cycle (fewer than 2^31, so that the `int32`
counter is their number). If the maximum count is 0 or less, the hook has been called,
whatever the maximum duration and the times of the failed fetches; so it has whenever the
maximum count is at most the number of failures; and when the maximum count is larger than
that number, the hook has been called exactly if the duration counter exceeds the maximum
duration. -/
theorem hook_fires_when_count_reached (r : Refresher) (ctxDone : Bool) (d : Int)
    (acts : List Action) (s : State) (h : exec r ctxDone d acts = some s)
    (hdone : s.idle ∨ (s.inCycle ∧ s.closed = true))
    (hhook : r.failedAttemptsFn.isSome = true)
    (hfail : 0 < failCount s.calls) (hsmall : failCount s.calls < 2147483648) :
    (r.failedAttemptsMaxCount ≤ 0 → s.hookCalls = 1) ∧
    (r.failedAttemptsMaxCount ≤ (failCount s.calls : Int) → s.hookCalls = 1) ∧
    ((failCount s.calls : Int) < r.failedAttemptsMaxCount →
      (s.hookCalls = 1 ↔ r.failedAttemptsMaxDuration < wrapInt64 (failDuration s.calls))) := by
  have hinv := inv_exec h
  have hcalls := hinv.hookDone hdone
  have hwrap := wrapInt32_small _ hsmall
  have hreached : r.failedAttemptsMaxCount ≤ (failCount s.calls : Int) → s.hookCalls = 1 := by
    intro hmax
    have hdue : hookDue r s.calls = true :=
      (hookDue_iff r s.calls).mpr ⟨hhook, hfail, Or.inl (by rw [hwrap]; exact hmax)⟩
    rw [hcalls, hdue]
    rfl
  refine ⟨?_, hreached, ?_⟩
  · intro hmax
    apply hreached
    have : (0 : Int) < (failCount s.calls : Int) := by exact_mod_cast hfail
    omega
  · intro hless
    rw [hcalls]
    constructor
    · intro hone
      have hdue : hookDue r s.calls = true := by
        cases hd : hookDue r s.calls with
        | true => rfl
        | false => simp [hd] at hone
      rcases ((hookDue_iff r s.calls).mp hdue).2.2 with hcount | hdur
      · rw [hwrap] at hcount
        omega
      · exact hdur
    · intro hdur
      have hdue : hookDue r s.calls = true :=
        (hookDue_iff r s.calls).mpr ⟨hhook, hfail, Or.inr hdur⟩
      rw [hdue]
      rfl

/-- C19 on the example with the maximum count 0 and the maximum duration one hour: one fetch
fails, after 7 ns, and the hook is called. -/
theorem hook_fires_when_count_reached_witness :
    ∃ s, exec refresherHour false 1 cycleAB = some s ∧
      failDuration s.calls = 7 ∧ s.hookCalls = 1 ∧
      ((refresherHour.failedAttemptsMaxCount ≤ 0 → s.hookCalls = 1) ∧
        (refresherHour.failedAttemptsMaxCount ≤ (failCount s.calls : Int) → s.hookCalls = 1) ∧
        ((failCount s.calls : Int) < refresherHour.failedAttemptsMaxCount →
          (s.hookCalls = 1 ↔
            refresherHour.failedAttemptsMaxDuration < wrapInt64 (failDuration s.calls)))) :=
  ⟨_, rfl, rfl, rfl,
    hook_fires_when_count_reached refresherHour false 1 cycleAB _ rfl (Or.inl (Or.inl rfl)) rfl
      (by decide) (by decide)⟩


/-! ## The context of the fetch tasks -/

theorem perm_cons_erase_lawful {α : Type} [BEq α] [LawfulBEq α] {x : α} :
    ∀ {l : List α}, x ∈ l → l.Perm (x :: l.erase x)
  | [], h => by simp at h
  | y :: t, h => by
    rw [List.erase_cons]
    by_cases hyx : (y == x) = true
    · have : y = x := eq_of_beq hyx
      subst this
      simp
    · have hne : y ≠ x := fun heq => hyx (by simp [heq])
      have hx : x ∈ t := by
        rcases List.mem_cons.mp h with h1 | h1
        · exact absurd h1.symm hne
        · exact h1
      simp only [hyx]
      exact ((perm_cons_erase_lawful hx).cons y).trans (List.Perm.swap x y _)

theorem map_erase_perm {α β : Type} [BEq α] [LawfulBEq α] (f : α → β) {x : α} {l : List α}
    (hx : x ∈ l) (q : List β) : ((l.erase x).map f ++ f x :: q).Perm (l.map f ++ q) := by
  have h1 : ((l.erase x).map f ++ f x :: q).Perm (f x :: ((l.erase x).map f ++ q)) :=
    List.perm_middle
  have h2 : (f x :: (l.erase x).map f).Perm (l.map f) := by
    have := ((perm_cons_erase_lawful hx).map f).symm
    simpa using this
  exact h1.trans (List.Perm.append_right q h2)

theorem fineInv_crashed (s : Fine) : FineInv { s with phase := .crashed } :=
  { openRanging := fun h => by simp at h
    collecting := fun h => by simp at h
    quiet := fun h => by simp [Fine.inCycle] at h
    onlyIf := fun h => by simp [Fine.inCycle] at h
    errCancels := fun h => by simp [Fine.inCycle] at h
    groupErr := fun h => by simp [Fine.inCycle] at h
    distinct := fun h => by simp [Fine.inCycle] at h }

theorem fineInv_entry (r : Refresher) (ctxDone : Bool) : FineInv (entryFine r ctxDone) :=
  { openRanging := fun h => by simp [entryFine] at h
    collecting := fun h => by simp [entryFine] at h
    quiet := fun h => by simp [Fine.inCycle, entryFine] at h
    onlyIf := fun h => by simp [Fine.inCycle, entryFine] at h
    errCancels := fun h => by simp [Fine.inCycle, entryFine] at h
    groupErr := fun h => by simp [Fine.inCycle, entryFine] at h
    distinct := fun h => by simp [Fine.inCycle, entryFine] at h }

theorem fineInv_step {r : Refresher} (a : FineAction) (s t : Fine) (hs : FineInv s)
    (h : stepFine r a s = some t) : FineInv t := by
  cases a with
  | tick =>
    simp only [stepFine] at h
    split at h
    · split at h
      · cases h
        exact fineInv_crashed s
      · rename_i f hf
        cases h
        exact
          { openRanging := fun _ => rfl
            collecting := fun h => by simp at h
            quiet := fun _ h => by simp at h
            onlyIf := fun _ h => Or.inl h
            errCancels := fun _ h => by simp at h
            groupErr := fun _ => by simp
            distinct := fun _ => by
              simpa [Fine.taskKeys] using mapKeys_nodup f.values }
    · cases h
  | go k =>
    simp only [stepFine] at h
    split at h
    · rename_i hc
      obtain ⟨hp, hk, _⟩ := hc
      cases h
      have hin : s.inCycle := Or.inl hp
      have hopen := hs.openRanging hp
      exact
        { openRanging := hs.openRanging
          collecting := fun h => by simp [hp] at h
          quiet := fun _ h => by simp [hopen] at h
          onlyIf := hs.onlyIf
          errCancels := hs.errCancels
          groupErr := hs.groupErr
          distinct := fun _ =>
            (moved_perm hk).nodup_iff.mpr (hs.distinct hin) }
    · cases h
  | endRange =>
    simp only [stepFine] at h
    split at h
    · rename_i hc
      obtain ⟨hp, hpend⟩ := hc
      cases h
      have hin : s.inCycle := Or.inl hp
      have hopen := hs.openRanging hp
      exact
        { openRanging := fun h => by simp at h
          collecting := fun _ => hpend
          quiet := fun _ h => by simp [hopen] at h
          onlyIf := fun _ => hs.onlyIf hin
          errCancels := fun _ => hs.errCancels hin
          groupErr := fun _ => hs.groupErr hin
          distinct := fun _ => hs.distinct hin }
    · cases h
  | call k =>
    simp only [stepFine] at h
    split at h
    · rename_i hc
      obtain ⟨hin, hk⟩ := hc
      have hopen : s.closed = false := by
        cases hcl : s.closed with
        | false => rfl
        | true =>
          have := (hs.quiet hin hcl).2.1
          simp [this] at hk
      split at h
      · cases h
        exact fineInv_crashed s
      · cases h
        exact
          { openRanging := hs.openRanging
            collecting := hs.collecting
            quiet := fun _ h => by simp [hopen] at h
            onlyIf := hs.onlyIf
            errCancels := hs.errCancels
            groupErr := hs.groupErr
            distinct := fun _ => by
              have hp : (s.started.erase k ++
                  k :: (s.calling.map Prod.fst ++ (s.failing.map Prod.fst ++ s.failedTasks))).Perm
                  (s.started ++
                    (s.calling.map Prod.fst ++ (s.failing.map Prod.fst ++ s.failedTasks))) :=
                moved_perm hk
              exact (List.Perm.append_left s.pending hp).nodup_iff.mpr (hs.distinct hin) }
    · cases h
  | back k c =>
    simp only [stepFine] at h
    split at h
    · rename_i hc
      obtain ⟨hin, hk⟩ := hc
      have hopen : s.closed = false := by
        cases hcl : s.closed with
        | false => rfl
        | true =>
          have := (hs.quiet hin hcl).2.2.1
          simp [this] at hk
      split at h
      · cases h
        exact fineInv_crashed s
      · rename_i fetchFn hfn
        split at h
        · rename_i e he
          cases h
          exact
            { openRanging := hs.openRanging
              collecting := hs.collecting
              quiet := fun _ h => by simp [hopen] at h
              onlyIf := hs.onlyIf
              errCancels := hs.errCancels
              groupErr := hs.groupErr
              distinct := fun _ => by
                have hp : ((s.calling.erase (k, c)).map Prod.fst ++
                    k :: (s.failing.map Prod.fst ++ s.failedTasks)).Perm
                    (s.calling.map Prod.fst ++ (s.failing.map Prod.fst ++ s.failedTasks)) :=
                  map_erase_perm Prod.fst hk _
                exact (List.Perm.append_left s.pending
                  (List.Perm.append_left s.started hp)).nodup_iff.mpr (hs.distinct hin) }
        · cases h
          exact
            { openRanging := hs.openRanging
              collecting := hs.collecting
              quiet := fun _ h => by simp [hopen] at h
              onlyIf := hs.onlyIf
              errCancels := hs.errCancels
              groupErr := hs.groupErr
              distinct := fun _ => by
                have hsub : ((s.calling.erase (k, c)).map Prod.fst).Sublist
                    (s.calling.map Prod.fst) :=
                  (List.erase_sublist (k, c) s.calling).map Prod.fst
                exact (hs.distinct hin).sublist
                  (List.Sublist.append (List.Sublist.refl _)
                    (List.Sublist.append (List.Sublist.refl _)
                      (List.Sublist.append hsub (List.Sublist.refl _)))) }
    · cases h
  | fail k e =>
    simp only [stepFine] at h
    split at h
    · rename_i hc
      obtain ⟨hin, hk⟩ := hc
      have hopen : s.closed = false := by
        cases hcl : s.closed with
        | false => rfl
        | true =>
          have := (hs.quiet hin hcl).2.2.2
          simp [this] at hk
      cases h
      exact
        { openRanging := hs.openRanging
          collecting := hs.collecting
          quiet := fun _ h => by simp [hopen] at h
          onlyIf := fun _ _ => Or.inr (Or.inl (by simp))
          errCancels := fun _ _ => rfl
          groupErr := fun _ => by
            constructor
            · intro _
              simp
            · intro _
              cases s.gErr <;> rfl
          distinct := fun _ => by
            have hp : ((s.failing.erase (k, e)).map Prod.fst ++ k :: s.failedTasks).Perm
                (s.failing.map Prod.fst ++ s.failedTasks) :=
              map_erase_perm Prod.fst hk _
            exact (List.Perm.append_left s.pending
              (List.Perm.append_left s.started
                (List.Perm.append_left (s.calling.map Prod.fst) hp))).nodup_iff.mpr
              (hs.distinct hin) }
    · cases h
  | recv k v =>
    simp only [stepFine] at h
    split at h
    · cases h
      exact
        { openRanging := hs.openRanging
          collecting := hs.collecting
          quiet := hs.quiet
          onlyIf := hs.onlyIf
          errCancels := hs.errCancels
          groupErr := hs.groupErr
          distinct := hs.distinct }
    · cases h
  | wait =>
    simp only [stepFine] at h
    split at h
    · rename_i hc
      obtain ⟨hp, _, hst, hca, hfa, _⟩ := hc
      cases h
      exact
        { openRanging := fun h => by simp [hp] at h
          collecting := hs.collecting
          quiet := fun _ _ => ⟨hp, hst, hca, hfa⟩
          onlyIf := fun _ _ => Or.inr (Or.inr rfl)
          errCancels := fun _ _ => rfl
          groupErr := hs.groupErr
          distinct := hs.distinct }
    · cases h
  | merge =>
    simp only [stepFine] at h
    split at h
    · split at h
      · cases h
        exact fineInv_crashed s
      · split at h
        · cases h
          exact fineInv_crashed s
        · cases h
          exact
            { openRanging := fun h => by simp at h
              collecting := fun h => by simp at h
              quiet := fun h => by simp [Fine.inCycle] at h
              onlyIf := fun h => by simp [Fine.inCycle] at h
              errCancels := fun h => by simp [Fine.inCycle] at h
              groupErr := fun h => by simp [Fine.inCycle] at h
              distinct := fun h => by simp [Fine.inCycle] at h }
    · cases h
  | cancel =>
    simp only [stepFine] at h
    cases h
    exact
      { openRanging := hs.openRanging
        collecting := hs.collecting
        quiet := hs.quiet
        onlyIf := fun _ _ => Or.inl rfl
        errCancels := hs.errCancels
        groupErr := hs.groupErr
        distinct := hs.distinct }
  | spread =>
    simp only [stepFine] at h
    split at h
    · rename_i hc
      cases h
      exact
        { openRanging := hs.openRanging
          collecting := hs.collecting
          quiet := hs.quiet
          onlyIf := fun _ _ => Or.inl hc
          errCancels := fun _ _ => rfl
          groupErr := hs.groupErr
          distinct := hs.distinct }
    · cases h
  | ret =>
    simp only [stepFine] at h
    split at h
    · cases h
      exact
        { openRanging := fun h => by simp at h
          collecting := fun h => by simp at h
          quiet := fun h => by simp [Fine.inCycle] at h
          onlyIf := fun h => by simp [Fine.inCycle] at h
          errCancels := fun h => by simp [Fine.inCycle] at h
          groupErr := fun h => by simp [Fine.inCycle] at h
          distinct := fun h => by simp [Fine.inCycle] at h }
    · cases h

theorem fineInv_run {r : Refresher} : ∀ (acts : List FineAction) (s t : Fine),
    FineInv s → runFine r acts s = some t → FineInv t := by
  intro acts
  induction acts with
  | nil =>
    intro s t hs h
    simp only [runFine] at h
    cases h
    exact hs
  | cons a rest ih =>
    intro s t hs h
    simp only [runFine] at h
    split at h
    · cases h
    · rename_i u hu
      exact ih u t (fineInv_step a s u hs hu) h

theorem fineInv_exec {r : Refresher} {ctxDone : Bool} {d : Int} {acts : List FineAction}
    {s : Fine} (h : execFine r ctxDone d acts = some s) : FineInv s := by
  unfold execFine at h
  split at h
  · cases h
  · exact fineInv_run acts _ s (fineInv_entry r ctxDone) h


/-- C10 as stated fails, with the calls overlapping: in the example, the task of a is inside
the fetch function, called with a live context; the fetch of b returns its error and the task
of b returns it; the context the task of a was passed is now cancelled, and the outer context
is not. -/
theorem sibling_error_cancels_call_in_flight :
    ¬ ∀ (r : Refresher) (ctxDone : Bool) (d : Int) (acts : List FineAction) (s : Fine),
      execFine r ctxDone d acts = some s →
        s.calling ≠ [] → s.gCtxDone = true → s.ctxDone = true := by
  intro hclaim
  have h := hclaim refresherAB false 1
    [.tick, .go "a", .go "b", .call "a", .call "b", .back "b" false, .fail "b" "unavailable"]
    _ rfl (by decide) rfl
  cases h

/-- C10, amended: in every state of a cycle that an execution of `RefreshCache` reaches, with
the calls of the fetch function overlapping in any way: the context passed to the fetch tasks
is cancelled only if the outer context is cancelled, or a task of the cycle has returned an
error to the group, or `g.Wait()` has returned; once a task has returned an error the context
is cancelled; a task that has returned an error is another task than those not yet started,
not yet calling, or inside the fetch function; and once `g.Wait()` has returned no fetch is
under way or still to come. -/
theorem group_context_cancelled_only_if (r : Refresher) (ctxDone : Bool) (d : Int)
    (acts : List FineAction) (s : Fine) (h : execFine r ctxDone d acts = some s)
    (hin : s.inCycle) :
    (s.gCtxDone = true → s.ctxDone = true ∨ s.failedTasks ≠ [] ∨ s.closed = true) ∧
    (s.failedTasks ≠ [] → s.gCtxDone = true) ∧
    (∀ k ∈ s.failedTasks, k ∉ s.pending ∧ k ∉ s.started ∧ k ∉ s.calling.map Prod.fst) ∧
    (s.closed = true → s.pending = [] ∧ s.started = [] ∧ s.calling = []) := by
  have hinv := fineInv_exec h
  refine ⟨hinv.onlyIf hin, hinv.errCancels hin, ?_, ?_⟩
  · intro k hk
    have hnd := hinv.distinct hin
    unfold Fine.taskKeys at hnd
    have h1 := List.nodup_append.mp hnd
    have h2 := List.nodup_append.mp h1.2.1
    have h3 := List.nodup_append.mp h2.2.1
    refine ⟨fun hp => h1.2.2 hp ?_, fun hst => h2.2.2 hst ?_, fun hc => h3.2.2 hc ?_⟩
    · exact List.mem_append_right _ (List.mem_append_right _ (List.mem_append_right _ hk))
    · exact List.mem_append_right _ (List.mem_append_right _ hk)
    · exact List.mem_append_right _ hk
  · intro hcl
    obtain ⟨hp, hst, hca, _⟩ := hinv.quiet hin hcl
    exact ⟨hinv.collecting hp, hst, hca⟩

/-- C10 amended, on the example: the task of a is inside the fetch function when the task of
b returns its error; the context is cancelled, the outer context is not. -/
theorem group_context_cancelled_only_if_witness :
    ∃ s, execFine refresherAB false 1
        [.tick, .go "a", .go "b", .call "a", .call "b", .back "b" false,
          .fail "b" "unavailable"] = some s ∧
      s.inCycle ∧ s.calling = [("a", false)] ∧ s.failedTasks = ["b"] ∧
      s.gCtxDone = true ∧ s.ctxDone = false ∧
      ((s.gCtxDone = true → s.ctxDone = true ∨ s.failedTasks ≠ [] ∨ s.closed = true) ∧
        (s.failedTasks ≠ [] → s.gCtxDone = true) ∧
        (∀ k ∈ s.failedTasks,
          k ∉ s.pending ∧ k ∉ s.started ∧ k ∉ s.calling.map Prod.fst) ∧
        (s.closed = true → s.pending = [] ∧ s.started = [] ∧ s.calling = [])) :=
  ⟨_, rfl, Or.inl rfl, rfl, rfl, rfl, rfl,
    group_context_cancelled_only_if refresherAB false 1
      [.tick, .go "a", .go "b", .call "a", .call "b", .back "b" false,
        .fail "b" "unavailable"] _ rfl (Or.inl rfl)⟩

/-- Two calls under way together can both be made with a live context and both return an
error before the group has received either: with every fetch failing, the calls of a and b are
made and return while the context is live. -/
theorem failures_with_live_context :
    (execFine refresherNone false 1
      [.tick, .go "a", .go "b", .call "a", .call "b", .back "b" false, .back "a" false]).map
        (fun s => (s.calls.map
          (fun c => (c.key, c.ctxAtCall, c.ctxAtReturn, c.ret.err.isSome)), s.gCtxDone)) =
      some ([("a", false, false, true), ("b", false, false, true)], false) := by
  decide


theorem runFine_append {r : Refresher} : ∀ (xs ys : List FineAction) (s t u : Fine),
    runFine r xs s = some t → runFine r ys t = some u → runFine r (xs ++ ys) s = some u := by
  intro xs
  induction xs with
  | nil =>
    intro ys s t u h1 h2
    simp only [runFine] at h1
    cases h1
    exact h2
  | cons a rest ih =>
    intro ys s t u h1 h2
    simp only [runFine] at h1
    split at h1
    · cases h1
    · rename_i v hv
      have := ih ys v t u h1 h2
      simp only [List.cons_append, runFine, hv]
      exact this

/-- Every move of `step` is a run of `stepFine`: the moves are the same, but for the fetch,
which is the call, its return and the return of the task one after the other, and for the
cancellation, which is followed at once by its reaching `gCtx`. -/
theorem step_refined {r : Refresher} (a : Action) (s t : State) (h : step r a s = some t) :
    ∃ fs, runFine r fs s.fine = some t.fine := by
  cases a with
  | tick =>
    obtain ⟨hp, ⟨hf, rfl⟩ | ⟨f, hf, rfl⟩⟩ := step_tick h
    · exact ⟨[.tick], by simp [runFine, stepFine, State.fine, hp, hf]⟩
    · exact ⟨[.tick], by simp [runFine, stepFine, State.fine, hp, hf]⟩
  | go k =>
    obtain ⟨hp, hk, hl, rfl⟩ := step_go h
    push_cast at hl
    exact ⟨[.go k], by simp [runFine, stepFine, State.fine, hp, hk, hl]⟩
  | endRange =>
    obtain ⟨hp, hpend, rfl⟩ := step_endRange h
    exact ⟨[.endRange], by simp [runFine, stepFine, State.fine, hp, hpend]⟩
  | fetch k =>
    obtain ⟨hin, hk, hcase⟩ := step_fetch h
    have hin2 : s.phase = .ranging ∨ s.phase = .collecting := hin
    rcases hcase with ⟨hfn, rfl⟩ | ⟨fetchFn, hfn, ⟨e, he, rfl⟩ | ⟨he, rfl⟩⟩
    · exact ⟨[.call k], by simp [runFine, stepFine, State.fine, hin2, hk, hfn]⟩
    · refine ⟨[.call k, .back k s.gCtxDone, .fail k e], ?_⟩
      simp [runFine, stepFine, State.fine, hin2, hk, hfn, he, afterFailure, Call.failed]
    · refine ⟨[.call k, .back k s.gCtxDone], ?_⟩
      simp [runFine, stepFine, State.fine, hin2, hk, hfn, he, afterSuccess, Call.failed]
  | recv k v =>
    obtain ⟨hp, hkv, rfl⟩ := step_recv h
    exact ⟨[.recv k v], by simp [runFine, stepFine, State.fine, hp, hkv]⟩
  | wait =>
    obtain ⟨hp, hcl, hrun, hsend, rfl⟩ := step_wait h
    exact ⟨[.wait], by simp [runFine, stepFine, State.fine, hp, hcl, hrun, hsend]⟩
  | merge =>
    obtain ⟨hp, hcl, hcase⟩ := step_merge h
    rcases hcase with ⟨hf, rfl⟩ | ⟨f, hf, ⟨e, he, rfl⟩ | ⟨g, hg, rfl⟩⟩
    · exact ⟨[.merge], by simp [runFine, stepFine, State.fine, hp, hcl, hf]⟩
    · exact ⟨[.merge], by simp [runFine, stepFine, State.fine, hp, hcl, hf, he]⟩
    · exact ⟨[.merge], by simp [runFine, stepFine, State.fine, hp, hcl, hf, hg]⟩
  | cancel =>
    obtain rfl := step_cancel h
    exact ⟨[.cancel, .spread], by simp [runFine, stepFine, State.fine]⟩
  | ret =>
    obtain ⟨hp, hc, rfl⟩ := step_ret h
    exact ⟨[.ret], by simp [runFine, stepFine, State.fine, hp, hc]⟩

/-- Every execution of `step` is an execution of `stepFine`. -/
theorem run_refined {r : Refresher} :
    ∀ (acts : List Action) (s t : State), run r acts s = some t →
      ∃ fs, runFine r fs s.fine = some t.fine := by
  intro acts
  induction acts with
  | nil =>
    intro s t h
    simp only [run] at h
    cases h
    exact ⟨[], rfl⟩
  | cons a rest ih =>
    intro s t h
    obtain ⟨u, hu, hrest⟩ := run_cons h
    obtain ⟨fs1, h1⟩ := step_refined a s u hu
    obtain ⟨fs2, h2⟩ := ih u t hrest
    exact ⟨fs1 ++ fs2, runFine_append fs1 fs2 _ _ _ h1 h2⟩


/-- Every execution of `RefreshCache` by the moves of `step` is one by the moves of
`stepFine`. -/
theorem exec_refined {r : Refresher} {ctxDone : Bool} {d : Int} {acts : List Action}
    {s : State} (h : exec r ctxDone d acts = some s) :
    ∃ fs, execFine r ctxDone d fs = some s.fine := by
  unfold exec at h
  unfold execFine
  split at h
  · cases h
  · rename_i s0 hs0
    have hentry : s0 = entryState r ctxDone := by
      unfold RefreshCache at hs0
      split at hs0
      · cases hs0
      · cases hs0
        rfl
    subst hentry
    obtain ⟨fs, hfs⟩ := run_refined acts _ s h
    exact ⟨fs, hfs⟩

end Flopt
